import Mathlib

/-!
# One-time-pad decryption daemon and client (`otp_dec_d.c`, `otp_dec.c`, `keygen.c`)

A shallow embedding of the cipher engine, the frame transport, the session
worker and the accept/dispatch/reap loop, followed by the properties proved
about them.

Conventions of the embedding:

* a C `char` and a C `int` are modelled by `Int`, a capacity that is never
  negative by `Nat`.  The arithmetic of the cipher stays within `-27 .. 91`.
  The counters of `receiveStream` are 32-bit `int`s: an assignment whose value
  would exceed `INT_MAX` is a signed overflow and ends the run as `fault`, so
  that a counter held in a state of a run always has its C value;
* a C string is the list of its bytes before the terminating NUL;
* a heap block is the list of its bytes.  In `receiveStream` a call of `malloc`
  or `realloc` succeeds or fails as the parameter `heap` says, and the bytes
  `realloc` adds have unspecified content (`heap.junk`);
* a function that talks to a socket is run against the list of results of its
  successive `recv` or `send` calls; when the list is used up while the function
  still asks for more, the run ends as `pending`;
* undefined behaviour (a write or a scan that leaves the block, a null pointer
  that is dereferenced) ends a run as `fault`.
-/

namespace OtpDec

/-! ## Cipher engine (`otp_dec_d.c`, lines 27-28 and 202-270; `keygen.c`, lines 84-113) -/

/-- The constant `MAX_PROC` of `otp_dec_d.c`. -/
def MAX_PROC : Int := 5

/-- The constant `MAX_CHAR` of `otp_dec_d.c` and `keygen.c`. -/
def MAX_CHAR : Int := 27

/-- The function `char_to_int`: the space character (32) is coded `MAX_CHAR - 1`,
every other character `c` is coded `c - 65`. -/
def char_to_int (c : Int) : Int :=
  if c = 32 then MAX_CHAR - 1 else c - 65

/-- The function `int_to_char`: `z` is first reduced by C's `%` (truncated
remainder, `Int.tmod`), then `MAX_CHAR - 1` becomes the space character and any
other value `z` becomes `z + 65`.  The result lies in `32..91`, so the narrowing
to `char` changes nothing. -/
def int_to_char (z : Int) : Int :=
  let z := Int.tmod z MAX_CHAR
  if z = MAX_CHAR - 1 then 32 else z + 65

/-- The body of the `for` loop of `decrypt` at one index: the two codes are
subtracted, a negative difference is lifted by `MAX_CHAR`, and the result is
turned back into a character. -/
def decryptChar (d k : Int) : Int :=
  let data_code := char_to_int d
  let key_code := char_to_int k
  let plain_code := data_code - key_code
  let plain_code := if plain_code < 0 then plain_code + MAX_CHAR else plain_code
  int_to_char plain_code

/-- The function `decrypt`.  `none` stands for the failed
`assert(datalen <= strlen(key))`; otherwise the loop visits the indices
`0 .. datalen - 1` of `data` and `key` in step. -/
def decrypt (data key : List Int) : Option (List Int) :=
  if data.length ≤ key.length then some (List.zipWith decryptChar data key) else none

/-- The alphabet of the cipher: the space character and the upper-case letters. -/
def isSymbol (c : Int) : Prop := c = 32 ∨ (65 ≤ c ∧ c ≤ 90)

instance (c : Int) : Decidable (isSymbol c) := by
  unfold isSymbol; infer_instance

/-- One position of the mirror transform, in the words of the spec:
`(code(plain[i]) + code(key[i])) mod 27`, turned back into a character. -/
def encryptChar (p k : Int) : Int :=
  int_to_char ((char_to_int p + char_to_int k) % 27)

/-- Modelled from the spec: the `encrypt` function belongs to the companion
encryption daemon, whose source is not among the files; the spec describes it as
the mirror of `decrypt`, `cipher[i] = (code(plain[i]) + code(key[i])) mod 27`,
under the same length precondition. -/
def encrypt (plain key : List Int) : Option (List Int) :=
  if plain.length ≤ key.length then some (List.zipWith encryptChar plain key) else none

/-- The bytes of a string literal, as C characters. -/
def chars (s : String) : List Int := s.toList.map (fun c => (c.toNat : Int))

/-! ## Frame transport: `receiveStream` (`otp_dec_d.c`, lines 279-323; `otp_dec.c`, lines 131-175) -/

/-- The terminating sequence `"@@@"` as bytes. -/
def SENTINEL : List Int := [64, 64, 64]

/-- Whether `needle` occurs at the very beginning of `hay`. -/
def startsWith : List Int → List Int → Bool
  | [], _ => true
  | _ :: _, [] => false
  | n :: ns, h :: hs => n == h && startsWith ns hs

/-- The index of the first occurrence of `needle` in the string `hay`. -/
def findSub (needle : List Int) : List Int → Option Nat
  | [] => if startsWith needle [] then some 0 else none
  | h :: hs =>
    if startsWith needle (h :: hs) then some 0
    else (findSub needle hs).map (· + 1)

/-- Whether a byte is not the terminating NUL. -/
def notNul (b : Int) : Bool := b != 0

/-- The C string that starts at offset `off` of the block `mem`: the bytes before
the first NUL.  `none` when no NUL follows inside the block (the scan would leave
the block). -/
def cstrAt (mem : List Int) (off : Nat) : Option (List Int) :=
  if (0 : Int) ∈ mem.drop off then some ((mem.drop off).takeWhile notNul) else none

/-- The call `strstr(mem + off, needle)`: `none` when the scan leaves the block,
otherwise the offset of the first occurrence relative to `mem + off`, if any. -/
def strstr (mem : List Int) (off : Nat) (needle : List Int) : Option (Option Nat) :=
  (cstrAt mem off).map (findSub needle)

/-- Writing the bytes `bs` into the block `mem` from offset `off` on; `none` when
the write would leave the block. -/
def store (mem : List Int) (off : Nat) (bs : List Int) : Option (List Int) :=
  if off + bs.length ≤ mem.length then
    some (mem.take off ++ bs ++ mem.drop (off + bs.length))
  else none

/-- The result of one `recv` call: the bytes it stored (their number is the
return value, zero after an orderly shutdown of the peer), or the error return
`-1`. -/
inductive RecvResult
  | data (bytes : List Int)
  | error
  deriving DecidableEq

/-- The largest value of a C `int` (32 bits wide on the platforms the program is
built for). -/
def INT_MAX : Nat := 2147483647

/-- The allocator as `receiveStream` meets it: `grants n` tells whether a request
for a block of `n` bytes succeeds (`malloc` and `realloc` return `NULL` when it
does not), and `junk i` is the content of the byte at index `i` of a block that
`realloc` has lengthened.  A run never asks twice for the same size, so that one
answer per size is one answer per call. -/
structure Heap where
  junk : Nat → Int
  grants : Nat → Bool

/-- A heap on which every request succeeds, new bytes holding `fill`. -/
def ampleHeap (fill : Int) : Heap := { junk := fun _ => fill, grants := fun _ => true }

/-- A heap on which the requests for more than `limit` bytes fail. -/
def tightHeap (limit : Nat) : Heap :=
  { junk := fun _ => 0, grants := fun n => decide (n ≤ limit) }

/-- The variables of `receiveStream`: the heap block `buffer`, the pointer
`start` as an offset into it, and the two `int` counters.  The loop body below
ends a run as `fault` instead of storing a value above `INT_MAX` in a counter,
so the unbounded types never hold a value the C variable could not hold. -/
structure RecvState where
  buffer : List Int
  start : Nat
  totalBytes : Int
  bufferlen : Nat
  deriving DecidableEq

/-- How one pass through the loop body ends. -/
inductive Iter
  | next (s : RecvState)
  | found (s : RecvState)
  | fault
  deriving DecidableEq

/-- How a run of `receiveStream` over a finite list of `recv` results ends. -/
inductive Outcome
  | returned (payload : List Int)
  | pending (s : RecvState)
  | fault
  deriving DecidableEq

/-- The state after `malloc` and the first `memset`. -/
def initState : RecvState :=
  { buffer := List.replicate 1024 0, start := 0, totalBytes := 0, bufferlen := 1024 }

/-- The length argument of the `recv` call. -/
def requested (s : RecvState) : Int := s.bufferlen - s.totalBytes - 5

/-- The block after a successful `realloc(buffer, n)`: the old bytes, followed by
bytes of unspecified content (`heap.junk i` at index `i`). -/
def realloc (heap : Heap) (buffer : List Int) (n : Nat) : List Int :=
  buffer.take n ++ (List.range (n - buffer.length)).map (fun i => heap.junk (buffer.length + i))

/-- The second half of the loop body, after `totalBytes` has been updated.  The
product `bufferlen * 2` is computed in `int`: when it exceeds `INT_MAX` the
behaviour is undefined (on the usual hardware it wraps to `-2^31`, a size no
`realloc` grants).  The result of `realloc` is not checked: after a failure
`start` is `NULL + totalBytes` and the `memset` writes through it. -/
def afterRecv (heap : Heap) (buffer : List Int) (start : Nat) (totalBytes : Int)
    (bufferlen : Nat) : Iter :=
  match strstr buffer start SENTINEL with
  | none => .fault
  | some (some _) =>
    .found { buffer := buffer, start := start, totalBytes := totalBytes, bufferlen := bufferlen }
  | some none =>
    if ((bufferlen / 2 : Nat) : Int) < totalBytes then
      if INT_MAX < bufferlen * 2 then .fault
      else
        let bufferlen2 := bufferlen * 2
        if heap.grants bufferlen2 then
          let buffer2 := realloc heap buffer bufferlen2
          let start2 := totalBytes.toNat
          let n : Int := bufferlen2 - totalBytes - 2
          if n < 0 then .fault
          else
            match store buffer2 start2 (List.replicate n.toNat 0) with
            | none => .fault
            | some buffer3 =>
              .next { buffer := buffer3, start := start2, totalBytes := totalBytes,
                      bufferlen := bufferlen2 }
        else .fault
    else
      .next { buffer := buffer, start := start, totalBytes := totalBytes, bufferlen := bufferlen }

/-- One pass through the body of the `while` loop, given what `recv` does.  The
sum `totalBytes + bytesRead` is computed in `int`. -/
def iteration (heap : Heap) (s : RecvState) (r : RecvResult) : Iter :=
  if s.totalBytes < 0 then .fault
  else
    let start := s.totalBytes.toNat
    match r with
    | .data bytes =>
      match store s.buffer start bytes with
      | none => .fault
      | some buffer1 =>
        if (INT_MAX : Int) < s.totalBytes + bytes.length then .fault
        else afterRecv heap buffer1 start (s.totalBytes + bytes.length) s.bufferlen
    | .error => afterRecv heap s.buffer start (s.totalBytes - 1) s.bufferlen

/-- The code after the loop: the terminating sequence is searched from `start`
on and overwritten by three NULs, and the block is returned to be read as a
string. -/
def finish (s : RecvState) : Outcome :=
  match strstr s.buffer s.start SENTINEL with
  | some (some i) =>
    match store s.buffer (s.start + i) [0, 0, 0] with
    | some buffer1 =>
      match cstrAt buffer1 0 with
      | some payload => .returned payload
      | none => .fault
    | none => .fault
  | _ => .fault

/-- The `while` loop of `receiveStream` run against a finite list of `recv`
results; `pending` when the list is used up while the loop still asks for
more. -/
def loop (heap : Heap) : RecvState → List RecvResult → Outcome
  | s, [] => if s.totalBytes < s.bufferlen then .pending s else finish s
  | s, r :: rs =>
    if s.totalBytes < s.bufferlen then
      match iteration heap s r with
      | .next s1 => loop heap s1 rs
      | .found s1 => finish s1
      | .fault => .fault
    else finish s

/-- The function `receiveStream` (the daemon's and the client's copies are the
same text).  The result of `malloc` is not checked: after a failure the first
`memset` writes through `NULL`. -/
def receiveStream (heap : Heap) (reads : List RecvResult) : Outcome :=
  if heap.grants 1024 then loop heap initState reads else .fault

/-- Whether the `recv` result `r` is one the call made in state `s` can produce:
at most the requested number of bytes is delivered. -/
def fits (s : RecvState) : RecvResult → Bool
  | .data bytes => decide ((bytes.length : Int) ≤ requested s)
  | .error => true

/-- Whether every `recv` result of the list fits the call that consumes it, along
the run of the loop from state `s`. -/
def readsFit (heap : Heap) : RecvState → List RecvResult → Bool
  | _, [] => true
  | s, r :: rs =>
    if s.totalBytes < s.bufferlen then
      fits s r &&
        match iteration heap s r with
        | .next s1 => readsFit heap s1 rs
        | _ => true
    else true

/-- Reads of the given lengths, every byte being `'A'`. -/
def plainReads (lens : List Nat) : List (List Int) := lens.map (fun n => List.replicate n 65)

/-- The lengths of twenty reads, each exactly as long as `recv` asks for: the
first fills the block of 1024 bytes up to its last five bytes, and every later
one does the same with the block doubled before it. -/
def fillLens : List Nat :=
  [1019, 1024, 2048, 4096, 8192, 16384, 32768, 65536, 131072, 262144, 524288, 1048576,
    2097152, 4194304, 8388608, 16777216, 33554432, 67108864, 134217728, 268435456]

/-! ## Frame transport: `send_to` (`otp_dec_d.c`, lines 168-191; `otp_dec.c`, lines 186-209) -/

/-- The variables of `send_to`, and the bytes the socket has accepted so far. -/
structure SendState where
  total : Int
  bytesleft : Int
  n : Int
  wire : List Int
  deriving DecidableEq

/-- How a run of `send_to` over a finite list of `send` results ends. -/
inductive SendOutcome
  | returned (ret : Int) (wire : List Int)
  | pending (s : SendState)
  deriving DecidableEq

/-- The two `return` statements after the loop. -/
def sendFinish (s : SendState) : SendOutcome :=
  .returned (if s.n = -1 then -1 else 0) s.wire

/-- The `while` loop of `send_to` run against the results of the successive
`send` calls.  A call made with `total` bytes already sent that returns `r ≥ 0`
has put the `r` bytes `message[total .. total + r)` on the wire. -/
def sendLoop (message : List Int) : SendState → List Int → SendOutcome
  | s, [] => if s.total < message.length then .pending s else sendFinish s
  | s, r :: rs =>
    if s.total < message.length then
      if r = -1 then sendFinish { s with n := r }
      else
        sendLoop message
          { total := s.total + r, bytesleft := s.bytesleft - r, n := r,
            wire := s.wire ++ (message.drop s.total.toNat).take r.toNat } rs
    else sendFinish s

/-- The function `send_to`.  The local `n` is declared without an initial value;
`n0` is the value it happens to hold on entry. -/
def send_to (n0 : Int) (message : List Int) (results : List Int) : SendOutcome :=
  sendLoop message
    { total := 0, bytesleft := message.length, n := n0, wire := [] } results

/-- Whether the results of the `send` calls are possible ones: each is `-1` or a
count between `0` and the bytes still left. -/
def sendsFit (message : List Int) : SendState → List Int → Bool
  | _, [] => true
  | s, r :: rs =>
    if s.total < message.length then
      if r = -1 then true
      else
        decide (0 ≤ r) && decide (r ≤ s.bytesleft) &&
          sendsFit message
            { total := s.total + r, bytesleft := s.bytesleft - r, n := r,
              wire := s.wire ++ (message.drop s.total.toNat).take r.toNat } rs
    else true

/-! ## Session worker: the child branch of `process` (`otp_dec_d.c`, lines 111-148) -/

/-- What the child does, as seen from outside, one entry per call. -/
inductive Action
  | receive (frame : List Int)
  | send (message : List Int)
  | sleep (seconds : Nat)
  | decryptCall (ciphertext key : List Int)
  | close
  | exitWith (code : Int)
  | aborted
  | blocked
  deriving DecidableEq

/-- The child branch of `process`.  `frames` holds the strings the successive
`receiveStream` calls return; when they are used up the child is left waiting
inside `receiveStream` (`blocked`).  `aborted` is the failed `assert` of
`decrypt`. -/
def process_child (frames : List (List Int)) : List Action :=
  match frames with
  | [] => [.blocked]
  | name :: rest =>
    .receive name ::
      (if findSub (chars "otp_dec") name = none then
        [.send (chars "BAD"), .send (chars "@@@"), .sleep 1, .close, .exitWith 1]
      else
        [.send (chars "GOOD"), .send (chars "@@@"), .sleep 1] ++
          (match rest with
          | [] => [.blocked]
          | ciphertext :: rest1 =>
            .receive ciphertext ::
              (match rest1 with
              | [] => [.blocked]
              | key :: _ =>
                .receive key :: .decryptCall ciphertext key ::
                  (match decrypt ciphertext key with
                  | none => [.aborted]
                  | some plaintext =>
                    [.send plaintext, .send (chars "@@@"), .sleep 1, .close, .exitWith 0]))))

/-! ## Worker pool: the loop of `main`, `block_cleanup` and `quick_cleanup`
(`otp_dec_d.c`, lines 65-83 and 360-400) -/

/-- Where the parent process stands. -/
inductive Loc
  | top
  | accepting
  | forking
  | blockWait
  | blockSweep
  | quickSweep
  deriving DecidableEq

/-- The parent's counter and control point, and the children it has forked:
`running` of them still execute, `zombies` have terminated and wait to be
reaped. -/
structure Daemon where
  loc : Loc
  process_count : Int
  running : Nat
  zombies : Nat
  deriving DecidableEq

/-- What can happen next: the parent takes the branch at the head of its loop,
one of its system calls (`accept`, `fork`, `wait`, `waitpid`) returns and the
parent runs on to the next call, or a running child terminates. -/
inductive Event
  | test
  | connect
  | fork
  | wait
  | waitpid
  | childExit
  deriving DecidableEq

/-- The statement `if (*process_count > 0) { (*process_count)--; }`. -/
def reap (process_count : Int) : Int :=
  if process_count > 0 then process_count - 1 else process_count

/-- One step of the daemon and its children; `none` when the event cannot happen
in the state.

* `test` (line 66): the branch on `process_count < MAX_PROC`;
* `connect` (lines 68-69): a connection arrives, `accept` returns and the counter
  is incremented;
* `fork` (lines 74 and 104): `fork` succeeds and creates a running child, the
  parent returns from `process` (a failing `accept` or `fork` ends the daemon and
  is not part of the model);
* `wait` (lines 387-390): `wait` returns a terminated child, or fails and is
  called again when there is no child at all;
* `waitpid` (lines 366-372 and 393-399): a terminated child is reaped and the
  sweep goes on, or none is left and the sweep ends;
* `childExit`: a running child terminates. -/
def step (d : Daemon) : Event → Option Daemon
  | .test =>
    if d.loc = .top then
      some { d with loc := if d.process_count < MAX_PROC then .accepting else .blockWait }
    else none
  | .connect =>
    if d.loc = .accepting then
      some { d with loc := .forking, process_count := d.process_count + 1 }
    else none
  | .fork =>
    if d.loc = .forking then
      some { d with loc := .quickSweep, running := d.running + 1 }
    else none
  | .wait =>
    if d.loc = .blockWait then
      if 0 < d.zombies then
        some { d with loc := .blockSweep, process_count := reap d.process_count,
                      zombies := d.zombies - 1 }
      else if d.running = 0 then some d
      else none
    else none
  | .waitpid =>
    if d.loc = .blockSweep ∨ d.loc = .quickSweep then
      if 0 < d.zombies then
        some { d with process_count := reap d.process_count, zombies := d.zombies - 1 }
      else some { d with loc := if d.loc = .blockSweep then .quickSweep else .top }
    else none
  | .childExit =>
    if 0 < d.running then
      some { d with running := d.running - 1, zombies := d.zombies + 1 }
    else none

/-- The daemon when it enters the loop of `main`. -/
def initDaemon : Daemon :=
  { loc := .top, process_count := 0, running := 0, zombies := 0 }

/-- The state after a sequence of events, if each of them can happen in turn. -/
def runDaemon : Daemon → List Event → Option Daemon
  | d, [] => some d
  | d, e :: es => (step d e).bind (fun d1 => runDaemon d1 es)

/-- The number of session workers that have been forked and not yet reaped. -/
def active (d : Daemon) : Nat := d.running + d.zombies

/-- The shape of the variables at the head of the loop after the bytes
`received` have been read: the block holds them, then NULs up to its last two
bytes; at most half of the block is used, a block that has grown is smaller
than four times what has been received, and the capacity is a value of `int`. -/
structure Inv (s : RecvState) (received : List Int) : Prop where
  total : s.totalBytes = received.length
  shape : ∃ z tail, s.buffer = received ++ List.replicate z 0 ++ tail ∧ tail.length = 2 ∧
    received.length + z + 2 = s.bufferlen
  half : received.length ≤ s.bufferlen / 2
  big : 1024 ≤ s.bufferlen
  cap : s.bufferlen = 1024 ∨ s.bufferlen < 4 * received.length
  small : s.bufferlen ≤ INT_MAX

/-- The counters `(totalBytes, bufferlen)` of `receiveStream` after reads of the
given lengths none of which holds the terminating sequence, starting from the
given counters; `none` when a read is longer than `recv` asks for or when the
capacity would be doubled beyond `INT_MAX`. -/
def sizesAfter : Nat → Nat → List Nat → Option (Nat × Nat)
  | total, bufferlen, [] => some (total, bufferlen)
  | total, bufferlen, n :: ns =>
    if total + n + 5 ≤ bufferlen then
      if bufferlen / 2 < total + n then
        if bufferlen * 2 ≤ INT_MAX then sizesAfter (total + n) (bufferlen * 2) ns else none
      else sizesAfter (total + n) bufferlen ns
    else none

/-- The string `needle` occurs somewhere inside the string `hay`. -/
def occursIn (needle hay : List Int) : Prop := ∃ pre post, hay = pre ++ needle ++ post

/-- What the loop of `main` keeps true: the counter equals the number of
children not yet reaped (one more between the increment and the `fork`), it
never exceeds `MAX_PROC`, and it is below `MAX_PROC` while the parent waits in
`accept`. -/
structure DaemonInv (d : Daemon) : Prop where
  count : d.process_count = (active d : Int) + (if d.loc = .forking then 1 else 0)
  bound : d.process_count ≤ MAX_PROC
  room : d.loc = .accepting → d.process_count < MAX_PROC

/-- The results of the `send` calls that `send_to` actually makes, in order: the
loop stops consuming results at the first `-1` and once the whole message has been
sent. -/
def sendCalls (message : List Int) : SendState → List Int → List Int
  | _, [] => []
  | s, r :: rs =>
    if s.total < message.length then
      if r = -1 then [r]
      else
        r :: sendCalls message
          { total := s.total + r, bytesleft := s.bytesleft - r, n := r,
            wire := s.wire ++ (message.drop s.total.toNat).take r.toNat } rs
    else []

/-- What the loop of `send_to` keeps true: `total` bytes of the message are on the
wire, and `bytesleft` is what remains. -/
structure SendInv (message : List Int) (s : SendState) : Prop where
  lower : 0 ≤ s.total
  upper : s.total ≤ message.length
  left : s.bytesleft = message.length - s.total
  wire : s.wire = message.take s.total.toNat

/-! ## Client: `validate`, `readFile`, `connect_to` and `main` (`otp_dec.c`) -/

/-- The messages the client writes to `stderr`. -/
inductive Diag
  | wrongArgCount
  | invalidArgs
  | fileNotFound
  | badCharacters
  | keyTooShort
  | couldNotContact
  | noSuchHost
  | socketError
  | connectError
  deriving DecidableEq

/-- What the client does, as seen from outside, one entry per call. -/
inductive ClientAction
  | diag (message : Diag)
  | readFile
  | connect_to
  | send_to (message : List Int)
  | sleep (seconds : Nat)
  | receiveStream (frame : List Int)
  | print (line : List Int)
  | close
  | exitWith (code : Int)
  | fault
  | blocked
  deriving DecidableEq

/-- The client's `validate`: the value returned and what it writes.  `port` is
the value of `atoi(argv[3])`, which is only evaluated when `argc` is 4. -/
def validate (argc port : Int) : Int × List ClientAction :=
  if argc ≠ 4 then (0, [.diag .wrongArgCount])
  else if port = 0 then (0, [])
  else (1, [])

/-- How a call of `readFile` ends: the block and the length stored through
`length`, an `exit(1)` after one of its two messages, or undefined behaviour. -/
inductive ReadOutcome
  | loaded (buffer : List Int) (length : Int)
  | fileNotFound
  | badCharacters
  | fault
  deriving DecidableEq

/-- How the reading loop of `readFile` ends. -/
inductive ReadLoop
  | done (stored : List Int) (bufferlen : Nat)
  | badCharacters
  | fault
  deriving DecidableEq

/-- The `while` loop of `readFile` over the characters `getc` still has to
deliver; `stored` are the bytes `buffer[0 .. *length)`.  The variable `c` is a
`char`, so a byte that reads as `-1` ends the loop like `EOF` does. -/
def readLoop : List Int → Nat → List Int → ReadLoop
  | stored, bufferlen, [] => .done stored bufferlen
  | stored, bufferlen, c :: rest =>
    if c ≠ -1 ∧ c ≠ 10 then
      if c ≠ 32 ∧ ¬ (c ≥ 65) ∧ ¬ (c ≤ 90) then .badCharacters
      else
        let bufferlen1 :=
          if (stored.length : Int) > (bufferlen : Int) - 20 then bufferlen * 2 else bufferlen
        if stored.length < bufferlen1 then readLoop (stored ++ [c]) bufferlen1 rest
        else .fault
    else .done stored bufferlen

/-- The function `readFile`.  `file` is `none` when `fopen` fails, otherwise the
characters of the file.  After the loop the rest of the block is cleared up to
its last five bytes, and `buffer[*length - 1]` is compared with the newline
character, which reads in front of the block when nothing has been stored. -/
def readFile (file : Option (List Int)) : ReadOutcome :=
  match file with
  | none => .fileNotFound
  | some content =>
    match readLoop [] 1024 content with
    | .badCharacters => .badCharacters
    | .fault => .fault
    | .done stored bufferlen =>
      if (bufferlen : Int) - stored.length - 5 < 0 then .fault
      else
        match stored.getLast? with
        | none => .fault
        | some last =>
          if last = 10 then .loaded stored.dropLast (stored.length - 1)
          else .loaded stored stored.length

/-- What `gethostbyname`, `socket` and `connect` do for `connect_to`. -/
inductive ConnectEnv
  | noHost
  | socketFailed
  | connectFailed
  | connected (socketFD : Nat)
  deriving DecidableEq

/-- The function `connect_to`: the descriptor it returns, or what it does before
it ends the process itself (the client's `error` calls `exit(0)`). -/
def connect_to : ConnectEnv → Except (List ClientAction) Int
  | .noHost => .error [.diag .noSuchHost, .exitWith 0]
  | .socketFailed => .error [.diag .socketError, .exitWith 0]
  | .connectFailed => .error [.diag .connectError, .exitWith 0]
  | .connected socketFD => .ok socketFD

/-- What surrounds a run of the client: its arguments, the two files, the
network, and the strings the successive `receiveStream` calls return. -/
structure ClientEnv where
  argc : Int
  port : Int
  ciphertextFile : Option (List Int)
  keyFile : Option (List Int)
  network : ConnectEnv
  frames : List (List Int)

/-- The string a block is read as: its bytes before the first NUL. -/
def cstring (buffer : List Int) : List Int := buffer.takeWhile notNul

/-- What `main` does when a `readFile` call does not return. -/
def readFailure : ReadOutcome → List ClientAction
  | .fileNotFound => [.diag .fileNotFound, .exitWith 1]
  | .badCharacters => [.diag .badCharacters, .exitWith 1]
  | _ => [.fault]

/-- The part of `main` after both files have been loaded and the key has been
found long enough (lines 73-121). -/
def exchange (env : ClientEnv) (ciphertext key : List Int) : List ClientAction :=
  .connect_to ::
    match connect_to env.network with
    | .error actions => actions
    | .ok socket =>
      if socket < 0 then [.diag .couldNotContact, .exitWith 2]
      else
        [.send_to (chars "otp_dec"), .send_to (chars "@@@"), .sleep 1] ++
          match env.frames with
          | [] => [.blocked]
          | status :: rest =>
            .receiveStream status ::
              (if status = chars "BAD" then [.diag .couldNotContact, .close, .exitWith 2]
              else
                [.send_to (cstring ciphertext), .send_to (chars "@@@"), .sleep 1,
                 .send_to (cstring key), .send_to (chars "@@@"), .sleep 1] ++
                  match rest with
                  | [] => [.blocked]
                  | plaintext :: _ =>
                    [.receiveStream plaintext, .print plaintext, .close, .exitWith 0])

/-- The client's `main`, as the list of what it does. -/
def client_main (env : ClientEnv) : List ClientAction :=
  let valid := validate env.argc env.port
  if valid.1 = 0 then valid.2 ++ [.diag .invalidArgs, .exitWith 3]
  else
    valid.2 ++ .readFile ::
      match readFile env.ciphertextFile with
      | .loaded ciphertext ciphertext_length =>
        .readFile ::
          match readFile env.keyFile with
          | .loaded key key_length =>
            if key_length < ciphertext_length then [.diag .keyTooShort, .exitWith 1]
            else exchange env ciphertext key
          | failure => readFailure failure
      | failure => readFailure failure

/-- Whether an action is a call of `connect_to`, `send_to` or `receiveStream`. -/
def isNetworkCall : ClientAction → Bool
  | .connect_to => true
  | .send_to _ => true
  | .receiveStream _ => true
  | _ => false

/-- The code the process ends with, when the last thing it does is to exit. -/
def exitCode (actions : List ClientAction) : Option Int :=
  match actions.getLast? with
  | some (.exitWith code) => some code
  | _ => none

/-! # Properties -/

/-! ### Lemmas on the codec -/

theorem tmod_small (z : Int) (h0 : 0 ≤ z) (h1 : z < 27) : Int.tmod z MAX_CHAR = z := by
  unfold MAX_CHAR
  rw [Int.tmod_eq_emod h0 (by decide)]
  exact Int.emod_eq_of_lt h0 h1

theorem char_to_int_range (c : Int) (h : isSymbol c) :
    0 ≤ char_to_int c ∧ char_to_int c ≤ 26 := by
  unfold char_to_int MAX_CHAR
  rcases h with h | ⟨h1, h2⟩
  · simp [h]
  · split_ifs with h3
    · omega
    · omega

theorem int_to_char_char_to_int (c : Int) (h : isSymbol c) :
    int_to_char (char_to_int c) = c := by
  have hr := char_to_int_range c h
  unfold int_to_char
  simp only [tmod_small _ hr.1 (by omega)]
  unfold char_to_int MAX_CHAR at *
  rcases h with h | ⟨h1, h2⟩
  · simp [h]
  · split_ifs at * with h3 h4 h4 <;> omega

theorem int_to_char_symbol (z : Int) (h0 : 0 ≤ z) (h1 : z ≤ 26) :
    isSymbol (int_to_char z) := by
  unfold int_to_char isSymbol
  simp only [tmod_small _ h0 (by omega)]
  unfold MAX_CHAR
  split_ifs with h <;> omega

theorem char_to_int_int_to_char (z : Int) (h0 : 0 ≤ z) (h1 : z ≤ 26) :
    char_to_int (int_to_char z) = z := by
  unfold int_to_char char_to_int
  simp only [tmod_small _ h0 (by omega)]
  unfold MAX_CHAR
  split_ifs with h h' h' <;> omega

/-- The loop body of `decrypt` computes the non-negative residue of the code
difference. -/
theorem decryptChar_eq (d k : Int) (hd : isSymbol d) (hk : isSymbol k) :
    decryptChar d k = int_to_char ((char_to_int d - char_to_int k) % 27) := by
  have h1 := char_to_int_range d hd
  have h2 := char_to_int_range k hk
  unfold decryptChar
  simp only [MAX_CHAR]
  congr 1
  split_ifs with h <;> omega

theorem decryptChar_encryptChar (p k : Int) (hp : isSymbol p) (hk : isSymbol k) :
    decryptChar (encryptChar p k) k = p := by
  have h1 := char_to_int_range p hp
  have h2 := char_to_int_range k hk
  have he0 : 0 ≤ (char_to_int p + char_to_int k) % 27 := by omega
  have he1 : (char_to_int p + char_to_int k) % 27 ≤ 26 := by omega
  unfold decryptChar encryptChar
  simp only [char_to_int_int_to_char _ he0 he1, MAX_CHAR]
  have : (if (char_to_int p + char_to_int k) % 27 - char_to_int k < 0
      then (char_to_int p + char_to_int k) % 27 - char_to_int k + 27
      else (char_to_int p + char_to_int k) % 27 - char_to_int k) = char_to_int p := by
    split_ifs with h <;> omega
  rw [this]
  exact int_to_char_char_to_int p hp

theorem decryptChar_A (c : Int) (hc : isSymbol c) : decryptChar c 65 = c := by
  have h1 := char_to_int_range c hc
  unfold decryptChar
  have h65 : char_to_int 65 = 0 := by decide
  simp only [h65, MAX_CHAR, sub_zero]
  rw [if_neg (by omega)]
  exact int_to_char_char_to_int c hc


theorem zipWith_decrypt_encrypt (p k : List Int) (hp : ∀ c ∈ p, isSymbol c)
    (hk : ∀ c ∈ k, isSymbol c) :
    List.zipWith decryptChar (List.zipWith encryptChar p k) k = List.take k.length p := by
  induction p generalizing k with
  | nil => simp
  | cons a p ih =>
    cases k with
    | nil => simp
    | cons b k =>
      simp only [List.zipWith_cons_cons, List.length_cons, List.take_succ_cons]
      rw [decryptChar_encryptChar a b (hp a (by simp)) (hk b (by simp))]
      rw [ih k (fun c hc => hp c (by simp [hc])) (fun c hc => hk c (by simp [hc]))]

theorem zipWith_decrypt_A (c k : List Int) (hc : ∀ x ∈ c, isSymbol x)
    (hk : ∀ x ∈ k, x = 65) :
    List.zipWith decryptChar c k = List.take k.length c := by
  induction c generalizing k with
  | nil => simp
  | cons a c ih =>
    cases k with
    | nil => simp
    | cons b k =>
      have hb : b = 65 := hk b (by simp)
      subst hb
      simp only [List.zipWith_cons_cons, List.length_cons, List.take_succ_cons]
      rw [decryptChar_A a (hc a (by simp))]
      rw [ih k (fun x hx => hc x (by simp [hx])) (fun x hx => hk x (by simp [hx]))]

/-! ## Cipher engine -/

/-- C1: for every plaintext `p` and key `k` over the 27-symbol alphabet with
`len(k) ≥ len(p)`, `encrypt p k` yields a ciphertext and `decrypt` of that
ciphertext under the same key yields `p`. -/
theorem decrypt_encrypt_roundtrip (p k : List Int) (hp : ∀ c ∈ p, isSymbol c)
    (hk : ∀ c ∈ k, isSymbol c) (hlen : p.length ≤ k.length) :
    ∃ c, encrypt p k = some c ∧ decrypt c k = some p := by
  refine ⟨List.zipWith encryptChar p k, ?_, ?_⟩
  · simp [encrypt, hlen]
  · unfold decrypt
    rw [if_pos (by simp [List.length_zipWith])]
    rw [zipWith_decrypt_encrypt p k hp hk, List.take_of_length_le hlen]

/-- C1, the scenario of the spec: `"HELLO WORLD"` encrypted and then decrypted
with the key `"XMCKLXVFYRM"` is recovered. -/
theorem decrypt_encrypt_roundtrip_witness :
    ∃ c, encrypt (chars "HELLO WORLD") (chars "XMCKLXVFYRM") = some c ∧
      decrypt c (chars "XMCKLXVFYRM") = some (chars "HELLO WORLD") :=
  decrypt_encrypt_roundtrip (chars "HELLO WORLD") (chars "XMCKLXVFYRM")
    (by decide) (by decide) (by decide)

/-- C2: for a ciphertext `c` of length `n` and a key `k` of length `m ≥ n`,
both over the alphabet, `decrypt c k` returns a string of length exactly `n`
whose `i`-th entry is the alphabet symbol with code
`(code(c[i]) - code(k[i])) mod 27`, the residue lying in `0..26`. -/
theorem decrypt_spec (ct k : List Int) (hc : ∀ x ∈ ct, isSymbol x)
    (hk : ∀ x ∈ k, isSymbol x) (hlen : ct.length ≤ k.length) :
    ∃ out, decrypt ct k = some out ∧ out.length = ct.length ∧
      ∀ (i : Nat) (hi : i < ct.length) (hik : i < k.length) (hio : i < out.length),
        isSymbol (out[i]) ∧
        char_to_int (out[i]) = (char_to_int (ct[i]) - char_to_int (k[i])) % 27 ∧
        0 ≤ (char_to_int (ct[i]) - char_to_int (k[i])) % 27 ∧
        (char_to_int (ct[i]) - char_to_int (k[i])) % 27 ≤ 26 := by
  refine ⟨List.zipWith decryptChar ct k, by simp [decrypt, hlen], ?_, ?_⟩
  · simp [List.length_zipWith, hlen]
  · intro i hi hik hio
    have h0 : 0 ≤ (char_to_int (ct[i]) - char_to_int (k[i])) % 27 := by omega
    have h1 : (char_to_int (ct[i]) - char_to_int (k[i])) % 27 ≤ 26 := by omega
    have hci : isSymbol (ct[i]) := hc _ (List.getElem_mem hi)
    have hki : isSymbol (k[i]) := hk _ (List.getElem_mem hik)
    rw [List.getElem_zipWith, decryptChar_eq _ _ hci hki]
    exact ⟨int_to_char_symbol _ h0 h1, char_to_int_int_to_char _ h0 h1, h0, h1⟩

/-- C2 at the ciphertext `"DQNVZ"` and the key `"XMCKL"`. -/
theorem decrypt_spec_witness :
    ∃ out, decrypt (chars "DQNVZ") (chars "XMCKL") = some out ∧
      out.length = (chars "DQNVZ").length ∧
      ∀ (i : Nat) (_ : i < (chars "DQNVZ").length) (hik : i < (chars "XMCKL").length)
        (hio : i < out.length),
        isSymbol (out[i]) ∧
        char_to_int (out[i])
          = (char_to_int ((chars "DQNVZ")[i]) - char_to_int ((chars "XMCKL")[i])) % 27 ∧
        0 ≤ (char_to_int ((chars "DQNVZ")[i]) - char_to_int ((chars "XMCKL")[i])) % 27 ∧
        (char_to_int ((chars "DQNVZ")[i]) - char_to_int ((chars "XMCKL")[i])) % 27 ≤ 26 :=
  decrypt_spec (chars "DQNVZ") (chars "XMCKL") (by decide) (by decide) (by decide)

/-- C3: for a ciphertext `c` over the alphabet and a key of at least the same
length made of the symbol `'A'` only, `decrypt` returns `c` unchanged. -/
theorem decrypt_all_A (c k : List Int) (hc : ∀ x ∈ c, isSymbol x)
    (hk : ∀ x ∈ k, x = 65) (hlen : c.length ≤ k.length) :
    decrypt c k = some c := by
  unfold decrypt
  rw [if_pos hlen, zipWith_decrypt_A c k hc hk, List.take_of_length_le hlen]

/-- C3, the scenario of the spec: `decrypt("NPYX", "AAAA") = "NPYX"`. -/
theorem decrypt_all_A_witness :
    decrypt (chars "NPYX") (chars "AAAA") = some (chars "NPYX") :=
  decrypt_all_A (chars "NPYX") (chars "AAAA") (by decide) (by decide) (by decide)

/-- C4: `char_to_int` and `int_to_char` are inverse bijections between the 27
alphabet symbols and the integers `0..26`: a symbol has a code in `0..26` and is
recovered from it, and an integer in `0..26` is turned into a symbol whose code it
is. -/
theorem codec_bijection :
    (∀ c : Int, isSymbol c →
      0 ≤ char_to_int c ∧ char_to_int c ≤ 26 ∧ int_to_char (char_to_int c) = c) ∧
    (∀ z : Int, 0 ≤ z → z ≤ 26 →
      isSymbol (int_to_char z) ∧ char_to_int (int_to_char z) = z) :=
  ⟨fun c h => ⟨(char_to_int_range c h).1, (char_to_int_range c h).2,
      int_to_char_char_to_int c h⟩,
    fun z h0 h1 => ⟨int_to_char_symbol z h0 h1, char_to_int_int_to_char z h0 h1⟩⟩

/-- C4 at the space character and at the code 26. -/
theorem codec_bijection_witness :
    (isSymbol 32 ∧ 0 ≤ char_to_int 32 ∧ char_to_int 32 ≤ 26 ∧
      int_to_char (char_to_int 32) = 32) ∧
    (isSymbol (int_to_char 26) ∧ char_to_int (int_to_char 26) = 26) :=
  ⟨⟨by decide, codec_bijection.1 32 (by decide)⟩,
    codec_bijection.2 26 (by decide) (by decide)⟩

/-! ### Lemmas on the search for the terminating sequence and on the block -/

theorem startsWith_sentinel_cons (h : Int) (hs : List Int) (hh : h ≠ 64) :
    startsWith SENTINEL (h :: hs) = false := by
  have : (64 : Int) ≠ h := fun e => hh e.symm
  simp [SENTINEL, startsWith, this]

theorem startsWith_sentinel_short (l : List Int) (hl : l.length < 3) :
    startsWith SENTINEL l = false := by
  match l, hl with
  | [], _ => simp [SENTINEL, startsWith]
  | [a], _ => simp [SENTINEL, startsWith]
  | [a, b], _ => simp [SENTINEL, startsWith]

theorem findSub_sentinel_short (l : List Int) (hl : l.length < 3) :
    findSub SENTINEL l = none := by
  induction l with
  | nil => simp [findSub, startsWith_sentinel_short]
  | cons a l ih =>
    have h1 : l.length < 3 := by simp at hl; omega
    simp [findSub, startsWith_sentinel_short _ hl, ih h1]

/-- Bytes without `'@'` in front of a string only shift the first occurrence of
the terminating sequence. -/
theorem findSub_sentinel_append (t l : List Int) (ht : ∀ b ∈ t, b ≠ 64) :
    findSub SENTINEL (t ++ l) = (findSub SENTINEL l).map (· + t.length) := by
  induction t with
  | nil => simp
  | cons a t ih =>
    have ha : a ≠ 64 := ht a (by simp)
    have ih1 := ih (fun b hb => ht b (by simp [hb]))
    rw [List.cons_append, findSub, startsWith_sentinel_cons _ _ ha, ih1]
    cases findSub SENTINEL l with
    | none => simp
    | some v => simp [Nat.add_assoc]

theorem findSub_sentinel_none (t : List Int) (ht : ∀ b ∈ t, b ≠ 64) :
    findSub SENTINEL t = none := by
  have := findSub_sentinel_append t [] ht
  simpa [findSub_sentinel_short] using this

theorem findSub_sentinel_at (t l : List Int) (ht : ∀ b ∈ t, b ≠ 64) :
    findSub SENTINEL (t ++ SENTINEL ++ l) = some t.length := by
  rw [List.append_assoc, findSub_sentinel_append t _ ht]
  have : findSub SENTINEL (SENTINEL ++ l) = some 0 := by
    simp [SENTINEL, findSub, startsWith]
  simp [this]

theorem takeWhile_nul (a l : List Int) :
    List.takeWhile notNul (a ++ 0 :: l) = List.takeWhile notNul a := by
  induction a with
  | nil => simp [notNul]
  | cons x a ih =>
    by_cases hx : notNul x = true
    · simp [List.takeWhile_cons, hx, ih]
    · simp [List.takeWhile_cons, hx]

theorem takeWhile_nul_free (a : List Int) (ha : ∀ b ∈ a, b ≠ 0) :
    List.takeWhile notNul a = a := by
  induction a with
  | nil => simp
  | cons x a ih =>
    have hx : notNul x = true := by simpa [notNul] using ha x (by simp)
    rw [List.takeWhile_cons, hx]
    simp [ih (fun b hb => ha b (by simp [hb]))]

/-- The string at offset `|a|` of a block `a ++ bs ++ 0 :: l`. -/
theorem cstrAt_append (a bs l : List Int) :
    cstrAt (a ++ bs ++ 0 :: l) a.length = some (List.takeWhile notNul bs) := by
  unfold cstrAt
  have hd : List.drop a.length (a ++ bs ++ 0 :: l) = bs ++ 0 :: l := by
    rw [List.append_assoc, List.drop_left]
  rw [hd, if_pos (by simp), takeWhile_nul]

theorem store_append (a mid l bs : List Int) (h : bs.length = mid.length) :
    store (a ++ mid ++ l) a.length bs = some (a ++ bs ++ l) := by
  unfold store
  rw [if_pos (by simp; omega)]
  have h1 : List.take a.length (a ++ mid ++ l) = a := by
    rw [List.append_assoc, List.take_left]
  have h2 : List.drop (a.length + bs.length) (a ++ mid ++ l) = l := by
    rw [h, ← List.length_append, List.drop_left]
  rw [h1, h2]

theorem store_at (a rest bs : List Int) (h : bs.length ≤ rest.length) :
    store (a ++ rest) a.length bs = some (a ++ bs ++ rest.drop bs.length) := by
  unfold store
  rw [if_pos (by simp; omega), List.take_left, List.drop_append]

theorem inv_init : Inv initState [] := by
  refine ⟨rfl, ⟨1022, [0, 0], ?_, rfl, rfl⟩, by decide, by decide, Or.inl rfl, by decide⟩
  show List.replicate (1022 + 2) (0 : Int) = [] ++ List.replicate 1022 0 ++ [0, 0]
  rw [List.replicate_add]
  rfl

/-- The search in the second half of the loop body sees exactly the bytes just
received, up to their first NUL. -/
theorem strstr_fresh (a bs tail : List Int) (z : Nat) (hz : 0 < z) :
    strstr (a ++ bs ++ List.replicate z 0 ++ tail) a.length SENTINEL
      = some (findSub SENTINEL (List.takeWhile notNul bs)) := by
  obtain ⟨k, rfl⟩ : ∃ k, z = k + 1 := ⟨z - 1, by omega⟩
  unfold strstr
  rw [List.replicate_succ, List.append_assoc (a ++ bs), List.cons_append, cstrAt_append]
  rfl

theorem afterRecv_found (heap : Heap) (a bs tail : List Int) (z bufferlen i : Nat)
    (total : Int) (hz : 0 < z) (hi : findSub SENTINEL (List.takeWhile notNul bs) = some i) :
    afterRecv heap (a ++ bs ++ List.replicate z 0 ++ tail) a.length total bufferlen
      = .found { buffer := a ++ bs ++ List.replicate z 0 ++ tail, start := a.length,
                 totalBytes := total, bufferlen := bufferlen } := by
  unfold afterRecv
  rw [strstr_fresh a bs tail z hz, hi]

/-- The growth step cannot be carried out: the doubled capacity is no `int`, or
`realloc` fails. -/
theorem afterRecv_fault (heap : Heap) (a bs tail : List Int) (z bufferlen : Nat) (total : Int)
    (hz : 0 < z) (hi : findSub SENTINEL (List.takeWhile notNul bs) = none)
    (hgrow : ((bufferlen / 2 : Nat) : Int) < total)
    (hbad : INT_MAX < bufferlen * 2 ∨ heap.grants (bufferlen * 2) = false) :
    afterRecv heap (a ++ bs ++ List.replicate z 0 ++ tail) a.length total bufferlen = .fault := by
  unfold afterRecv
  rw [strstr_fresh a bs tail z hz, hi]
  simp only
  rw [if_pos hgrow]
  by_cases hov : INT_MAX < bufferlen * 2
  · rw [if_pos hov]
  · rw [if_neg hov]
    rcases hbad with h | h
    · exact absurd h hov
    · simp [h]

theorem afterRecv_next (heap : Heap) (a bs tail : List Int) (z bufferlen : Nat)
    (hz : 3 ≤ z) (htail : tail.length = 2) (hlen : a.length + bs.length + z + 2 = bufferlen)
    (hbig : 1024 ≤ bufferlen) (hcap : bufferlen = 1024 ∨ bufferlen < 4 * a.length)
    (hsmall : bufferlen ≤ INT_MAX)
    (hi : findSub SENTINEL (List.takeWhile notNul bs) = none)
    (hok : bufferlen / 2 < (a ++ bs).length →
      bufferlen * 2 ≤ INT_MAX ∧ heap.grants (bufferlen * 2) = true) :
    ∃ s1, afterRecv heap (a ++ bs ++ List.replicate z 0 ++ tail) a.length
        ((a ++ bs).length : Nat) bufferlen = .next s1 ∧ Inv s1 (a ++ bs) := by
  unfold afterRecv
  rw [strstr_fresh a bs tail z (by omega), hi]
  simp only
  by_cases hhalf : ((bufferlen / 2 : Nat) : Int) < ((a ++ bs).length : Nat)
  · rw [if_pos hhalf]
    obtain ⟨hroom, hgr⟩ := hok (by exact_mod_cast hhalf)
    rw [if_neg (by omega), hgr, if_pos rfl]
    have hn : ¬ ((((bufferlen * 2 : Nat) : Int) - ((a ++ bs).length : Nat) - 2) < 0) := by
      simp only [List.length_append]; omega
    rw [if_neg hn]
    have hblock : (a ++ bs ++ List.replicate z 0 ++ tail).length = bufferlen := by
      simp only [List.length_append, List.length_replicate]; omega
    have hre : realloc heap (a ++ bs ++ List.replicate z 0 ++ tail) (bufferlen * 2)
        = (a ++ bs) ++ (List.replicate z 0 ++ tail ++
            (List.range bufferlen).map (fun i => heap.junk (bufferlen + i))) := by
      unfold realloc
      rw [hblock, List.take_of_length_le (by omega)]
      have : bufferlen * 2 - bufferlen = bufferlen := by omega
      rw [this]
      simp only [List.append_assoc]
    rw [hre, Int.toNat_ofNat]
    rw [store_at (a ++ bs) _ _ (by
      simp only [List.length_append, List.length_replicate, List.length_map, List.length_range,
        Int.toNat_ofNat]
      omega)]
    refine ⟨_, rfl, ⟨rfl, ⟨_, _, rfl, ?_, ?_⟩, ?_, ?_, ?_, hroom⟩⟩
    · simp only [List.length_drop, List.length_append, List.length_replicate, List.length_map,
        List.length_range]
      omega
    · simp only [List.length_replicate, List.length_append]
      omega
    · show (a ++ bs).length ≤ bufferlen * 2 / 2
      simp only [List.length_append]; omega
    · show 1024 ≤ bufferlen * 2
      omega
    · right
      show bufferlen * 2 < 4 * (a ++ bs).length
      omega
  · rw [if_neg hhalf]
    refine ⟨_, rfl, ⟨rfl, ⟨z, tail, rfl, htail, ?_⟩, ?_, hbig, ?_, hsmall⟩⟩
    · simp only [List.length_append]; omega
    · show (a ++ bs).length ≤ bufferlen / 2
      omega
    · show bufferlen = 1024 ∨ bufferlen < 4 * (a ++ bs).length
      simp only [List.length_append]
      omega

/-- The second half of the loop body on a read without the terminating
sequence: the run goes on with the invariant intact, unless the block has to
grow and cannot. -/
theorem afterRecv_step (heap : Heap) (a bs tail : List Int) (z bufferlen : Nat)
    (hz : 3 ≤ z) (htail : tail.length = 2) (hlen : a.length + bs.length + z + 2 = bufferlen)
    (hbig : 1024 ≤ bufferlen) (hcap : bufferlen = 1024 ∨ bufferlen < 4 * a.length)
    (hsmall : bufferlen ≤ INT_MAX)
    (hi : findSub SENTINEL (List.takeWhile notNul bs) = none) :
    afterRecv heap (a ++ bs ++ List.replicate z 0 ++ tail) a.length
        ((a ++ bs).length : Nat) bufferlen = .fault ∨
      ∃ s1, afterRecv heap (a ++ bs ++ List.replicate z 0 ++ tail) a.length
        ((a ++ bs).length : Nat) bufferlen = .next s1 ∧ Inv s1 (a ++ bs) := by
  by_cases hok : bufferlen / 2 < (a ++ bs).length →
      bufferlen * 2 ≤ INT_MAX ∧ heap.grants (bufferlen * 2) = true
  · exact Or.inr (afterRecv_next heap a bs tail z bufferlen hz htail hlen hbig hcap hsmall hi hok)
  · left
    rw [Classical.not_imp, not_and_or] at hok
    obtain ⟨hgrow, hbad⟩ := hok
    apply afterRecv_fault heap a bs tail z bufferlen _ (by omega) hi (by exact_mod_cast hgrow)
    rcases hbad with h | h
    · exact Or.inl (by omega)
    · exact Or.inr (by simpa using h)

/-- The sizes after a pass through the loop body that goes on to another read:
`totalBytes` has grown by the number of bytes read, and the capacity has been
doubled exactly when the new `totalBytes` exceeds half of it. -/
theorem afterRecv_next_sizes (heap : Heap) (buffer : List Int) (start : Nat)
    (total : Int) (bufferlen : Nat) (s1 : RecvState)
    (h : afterRecv heap buffer start total bufferlen = .next s1) :
    s1.totalBytes = total ∧
      s1.bufferlen = (if ((bufferlen / 2 : Nat) : Int) < total then bufferlen * 2 else bufferlen) := by
  unfold afterRecv at h
  split at h
  · exact Iter.noConfusion h
  · exact Iter.noConfusion h
  · split at h
    · rename_i hhalf
      rw [if_pos hhalf]
      split at h
      · exact Iter.noConfusion h
      · simp only at h
        split at h
        · split at h
          · exact Iter.noConfusion h
          · split at h
            · exact Iter.noConfusion h
            · injection h with h
              subst h
              exact ⟨rfl, rfl⟩
        · exact Iter.noConfusion h
    · rename_i hhalf
      rw [if_neg hhalf]
      injection h with h
      subst h
      exact ⟨rfl, rfl⟩

/-- The sizes after a pass through the whole loop body that goes on to another
read. -/
theorem iteration_next_sizes (heap : Heap) (s s1 : RecvState) (bs : List Int)
    (h : iteration heap s (.data bs) = .next s1) :
    s1.totalBytes = s.totalBytes + bs.length ∧
      s1.bufferlen = (if ((s.bufferlen / 2 : Nat) : Int) < s.totalBytes + bs.length
        then s.bufferlen * 2 else s.bufferlen) := by
  unfold iteration at h
  split at h
  · exact Iter.noConfusion h
  · simp only at h
    split at h
    · exact Iter.noConfusion h
    · split at h
      · exact Iter.noConfusion h
      · exact afterRecv_next_sizes heap _ _ _ _ s1 h

theorem drop_zeros (bs tail : List Int) (z : Nat) (h : bs.length ≤ z) :
    List.drop bs.length (List.replicate z 0 ++ tail)
      = List.replicate (z - bs.length) 0 ++ tail := by
  rw [List.drop_append_of_le_length (by simpa using h), List.drop_replicate]

/-- The first half of the loop body on a read that fits: the bytes land behind
those already received. -/
theorem iteration_data (heap : Heap) (s : RecvState) (received bs tail : List Int)
    (z : Nat) (htotal : s.totalBytes = received.length)
    (hshape : s.buffer = received ++ List.replicate z 0 ++ tail)
    (hfit : bs.length ≤ z) (hint : received.length + bs.length ≤ INT_MAX) :
    iteration heap s (.data bs)
      = afterRecv heap (received ++ bs ++ List.replicate (z - bs.length) 0 ++ tail)
          received.length ((received ++ bs).length : Nat) s.bufferlen := by
  unfold iteration
  rw [if_neg (by omega)]
  simp only [htotal, Int.toNat_ofNat]
  rw [hshape, List.append_assoc, store_at received _ bs (by simp; omega), drop_zeros bs tail z hfit]
  simp only
  rw [if_neg (by omega)]
  simp only [List.length_append, Nat.cast_add, List.append_assoc]

theorem fits_data (s : RecvState) (received bs : List Int) (z : Nat)
    (htotal : s.totalBytes = received.length) (hlen : received.length + z + 2 = s.bufferlen)
    (hfit : fits s (.data bs) = true) : bs.length + 3 ≤ z := by
  simp only [fits, requested, decide_eq_true_eq] at hfit
  omega

theorem iteration_data_next (heap : Heap) (s : RecvState) (received bs : List Int)
    (hinv : Inv s received) (hfit : fits s (.data bs) = true)
    (hi : findSub SENTINEL (List.takeWhile notNul bs) = none)
    (hok : s.bufferlen / 2 < (received ++ bs).length →
      s.bufferlen * 2 ≤ INT_MAX ∧ heap.grants (s.bufferlen * 2) = true) :
    ∃ s1, iteration heap s (.data bs) = .next s1 ∧ Inv s1 (received ++ bs) := by
  obtain ⟨htotal, ⟨z, tail, hshape, htail, hlen⟩, hhalf, hbig, hcap, hsmall⟩ := hinv
  have hz := fits_data s received bs z htotal hlen hfit
  rw [iteration_data heap s received bs tail z htotal hshape (by omega) (by omega)]
  exact afterRecv_next heap received bs tail (z - bs.length) s.bufferlen (by omega) htail
    (by omega) hbig hcap hsmall hi hok

/-- The loop body on a read that fits and does not hold the terminating
sequence: the run goes on with the invariant intact, unless the block has to
grow and cannot. -/
theorem iteration_data_step (heap : Heap) (s : RecvState) (received bs : List Int)
    (hinv : Inv s received) (hfit : fits s (.data bs) = true)
    (hi : findSub SENTINEL (List.takeWhile notNul bs) = none) :
    iteration heap s (.data bs) = .fault ∨
      ∃ s1, iteration heap s (.data bs) = .next s1 ∧ Inv s1 (received ++ bs) := by
  obtain ⟨htotal, ⟨z, tail, hshape, htail, hlen⟩, hhalf, hbig, hcap, hsmall⟩ := hinv
  have hz := fits_data s received bs z htotal hlen hfit
  rw [iteration_data heap s received bs tail z htotal hshape (by omega) (by omega)]
  exact afterRecv_step heap received bs tail (z - bs.length) s.bufferlen (by omega) htail
    (by omega) hbig hcap hsmall hi

/-- The loop body on a read that fits, does not hold the terminating sequence
and makes the block grow when the doubled capacity is no `int` or `realloc`
fails. -/
theorem iteration_data_fault (heap : Heap) (s : RecvState) (received bs : List Int)
    (hinv : Inv s received) (hfit : fits s (.data bs) = true)
    (hi : findSub SENTINEL (List.takeWhile notNul bs) = none)
    (hgrow : s.bufferlen / 2 < (received ++ bs).length)
    (hbad : INT_MAX < s.bufferlen * 2 ∨ heap.grants (s.bufferlen * 2) = false) :
    iteration heap s (.data bs) = .fault := by
  obtain ⟨htotal, ⟨z, tail, hshape, htail, hlen⟩, hhalf, hbig, hcap, hsmall⟩ := hinv
  have hz := fits_data s received bs z htotal hlen hfit
  rw [iteration_data heap s received bs tail z htotal hshape (by omega) (by omega)]
  exact afterRecv_fault heap received bs tail (z - bs.length) s.bufferlen _ (by omega) hi
    (by exact_mod_cast hgrow) hbad

theorem iteration_data_found (heap : Heap) (s : RecvState) (received bs : List Int)
    (i : Nat) (hinv : Inv s received) (hfit : fits s (.data bs) = true)
    (hi : findSub SENTINEL (List.takeWhile notNul bs) = some i) :
    ∃ z tail, 0 < z ∧ iteration heap s (.data bs)
      = .found { buffer := received ++ bs ++ List.replicate z 0 ++ tail,
                 start := received.length, totalBytes := ((received ++ bs).length : Nat),
                 bufferlen := s.bufferlen } := by
  obtain ⟨htotal, ⟨z, tail, hshape, htail, hlen⟩, hhalf, hbig, hcap, hsmall⟩ := hinv
  have hz := fits_data s received bs z htotal hlen hfit
  refine ⟨z - bs.length, tail, by omega, ?_⟩
  rw [iteration_data heap s received bs tail z htotal hshape (by omega) (by omega)]
  exact afterRecv_found heap received bs tail (z - bs.length) s.bufferlen i _ (by omega) hi

/-- The code after the loop on a block whose last read ends with the terminating
sequence. -/
theorem finish_found (a p tail : List Int) (z bufferlen : Nat) (total : Int) (hz : 0 < z)
    (ha : ∀ b ∈ a, b ≠ 0) (hp : ∀ b ∈ p, b ≠ 64 ∧ b ≠ 0) :
    finish { buffer := a ++ (p ++ SENTINEL) ++ List.replicate z 0 ++ tail, start := a.length,
             totalBytes := total, bufferlen := bufferlen } = .returned (a ++ p) := by
  have hp0 : ∀ b ∈ p ++ SENTINEL, b ≠ 0 := by
    intro b hb
    rcases List.mem_append.1 hb with h | h
    · exact (hp b h).2
    · simp [SENTINEL] at h; omega
  have hap : ∀ b ∈ a ++ p, b ≠ 0 := by
    intro b hb
    rcases List.mem_append.1 hb with h | h
    · exact ha b h
    · exact (hp b h).2
  unfold finish
  simp only
  rw [strstr_fresh a (p ++ SENTINEL) tail z hz, takeWhile_nul_free _ hp0]
  have hf : findSub SENTINEL (p ++ SENTINEL) = some p.length := by
    simpa using findSub_sentinel_at p [] (fun b hb => (hp b hb).1)
  rw [hf]
  simp only
  have hb : a ++ (p ++ SENTINEL) ++ List.replicate z 0 ++ tail
      = (a ++ p) ++ SENTINEL ++ (List.replicate z 0 ++ tail) := by
    simp only [List.append_assoc]
  rw [hb, ← List.length_append, store_append (a ++ p) SENTINEL _ [0, 0, 0] rfl]
  have hc : cstrAt (a ++ p ++ [0, 0, 0] ++ (List.replicate z 0 ++ tail)) 0
      = some (List.takeWhile notNul (a ++ p)) := by
    have := cstrAt_append [] (a ++ p) ([0, 0] ++ (List.replicate z 0 ++ tail))
    simpa using this
  simp only [hc, takeWhile_nul_free _ hap]

theorem inv_guard (s : RecvState) (received : List Int) (hinv : Inv s received) :
    s.totalBytes < s.bufferlen := by
  obtain ⟨htotal, _, hhalf, hbig, _, _⟩ := hinv
  omega

/-- The loop on reads without `'@'` and NUL followed by a read that ends with the
terminating sequence. -/
theorem loop_cons (heap : Heap) (s : RecvState) (r : RecvResult) (rs : List RecvResult)
    (hguard : s.totalBytes < s.bufferlen) :
    loop heap s (r :: rs) =
      match iteration heap s r with
      | .next s1 => loop heap s1 rs
      | .found s1 => finish s1
      | .fault => .fault := by
  rw [loop, if_pos hguard]

theorem readsFit_cons (heap : Heap) (s : RecvState) (r : RecvResult)
    (rs : List RecvResult) (hguard : s.totalBytes < s.bufferlen) :
    readsFit heap s (r :: rs) =
      (fits s r &&
        match iteration heap s r with
        | .next s1 => readsFit heap s1 rs
        | _ => true) := by
  rw [readsFit, if_pos hguard]

theorem mem_append_nul_free (a b : List Int) (ha : ∀ x ∈ a, x ≠ 0) (hb : ∀ x ∈ b, x ≠ 0) :
    ∀ x ∈ a ++ b, x ≠ 0 := by
  intro x hx
  rcases List.mem_append.1 hx with h | h
  · exact ha x h
  · exact hb x h

/-- The loop on reads without `'@'` and NUL followed by a read that ends with the
terminating sequence. -/
theorem loop_whole_sentinel (heap : Heap) (pre : List (List Int)) (last : List Int)
    (more : List RecvResult) (s : RecvState) (received : List Int)
    (hinv : Inv s received) (hrec : ∀ b ∈ received, b ≠ 0)
    (hpre : ∀ c ∈ pre, ∀ b ∈ c, b ≠ 64 ∧ b ≠ 0) (hlast : ∀ b ∈ last, b ≠ 64 ∧ b ≠ 0)
    (hgr : ∀ n, heap.grants n = true)
    (hlen : (received ++ pre.flatten).length ≤ 2 ^ 29)
    (hfit : readsFit heap s ((pre ++ [last ++ SENTINEL]).map .data) = true) :
    loop heap s ((pre ++ [last ++ SENTINEL]).map .data ++ more)
      = .returned (received ++ pre.flatten ++ last) := by
  induction pre generalizing s received with
  | nil =>
    have hguard := inv_guard s received hinv
    have e : ([] ++ [last ++ SENTINEL]).map RecvResult.data ++ more
        = .data (last ++ SENTINEL) :: more := rfl
    have e1 : ([] ++ [last ++ SENTINEL]).map RecvResult.data
        = [.data (last ++ SENTINEL)] := rfl
    rw [e1, readsFit_cons heap s _ _ hguard, Bool.and_eq_true] at hfit
    have hp0 : ∀ b ∈ last ++ SENTINEL, b ≠ 0 :=
      mem_append_nul_free _ _ (fun b hb => (hlast b hb).2) (by decide)
    have hf : findSub SENTINEL (List.takeWhile notNul (last ++ SENTINEL)) = some last.length := by
      rw [takeWhile_nul_free _ hp0]
      simpa using findSub_sentinel_at last [] (fun b hb => (hlast b hb).1)
    obtain ⟨z, tail, hz, hit⟩ := iteration_data_found heap s received _ _ hinv hfit.1 hf
    rw [e, loop_cons heap s _ _ hguard, hit]
    simp only
    rw [finish_found received last tail z _ _ hz hrec hlast]
    simp
  | cons c pre ih =>
    have hguard := inv_guard s received hinv
    have hc := hpre c (by simp)
    have hc0 : ∀ b ∈ c, b ≠ 0 := fun b hb => (hc b hb).2
    have hf : findSub SENTINEL (List.takeWhile notNul c) = none := by
      rw [takeWhile_nul_free _ hc0]
      exact findSub_sentinel_none c (fun b hb => (hc b hb).1)
    have e : (c :: pre ++ [last ++ SENTINEL]).map RecvResult.data ++ more
        = .data c :: ((pre ++ [last ++ SENTINEL]).map RecvResult.data ++ more) := rfl
    have e1 : (c :: pre ++ [last ++ SENTINEL]).map RecvResult.data
        = .data c :: (pre ++ [last ++ SENTINEL]).map RecvResult.data := rfl
    rw [e1, readsFit_cons heap s _ _ hguard, Bool.and_eq_true] at hfit
    have hlen1 : received.length + c.length + pre.flatten.length ≤ 2 ^ 29 := by
      simp only [List.flatten_cons, List.length_append] at hlen
      omega
    obtain ⟨s1, hit, hinv1⟩ := iteration_data_next heap s received c hinv hfit.1 hf
      (fun hgrow => ⟨by
        simp only [List.length_append] at hgrow
        unfold INT_MAX
        omega, hgr _⟩)
    rw [hit] at hfit
    rw [e, loop_cons heap s _ _ hguard, hit]
    simp only
    rw [ih s1 (received ++ c) hinv1 (mem_append_nul_free _ _ hrec hc0)
      (fun d hd => hpre d (by simp [hd]))
      (by simp only [List.length_append]; omega) hfit.2]
    simp

theorem finish_ne_pending (s s1 : RecvState) : finish s ≠ .pending s1 := by
  unfold finish
  intro h
  split at h
  · split at h
    · split at h <;> exact Outcome.noConfusion h
    · exact Outcome.noConfusion h
  · exact Outcome.noConfusion h

/-- A run that is still waiting for input goes on from where it stands when more
reads arrive. -/
theorem loop_append_pending (heap : Heap) (rs extra : List RecvResult)
    (s s1 : RecvState) (h : loop heap s rs = .pending s1) :
    loop heap s (rs ++ extra) = loop heap s1 extra := by
  induction rs generalizing s with
  | nil =>
    rw [loop] at h
    split at h
    · have : s = s1 := by injection h
      rw [this, List.nil_append]
    · exact absurd h (finish_ne_pending s s1)
  | cons r rs ih =>
    rw [loop] at h
    rw [List.cons_append, loop]
    split at h
    · rename_i hguard
      rw [if_pos hguard]
      cases hit : iteration heap s r with
      | next s2 =>
        rw [hit] at h
        exact ih s2 h
      | found s2 =>
        rw [hit] at h
        exact absurd h (finish_ne_pending s2 s1)
      | fault =>
        rw [hit] at h
        exact Outcome.noConfusion h
    · exact absurd h (finish_ne_pending s s1)

/-- The invariant holds wherever a run over reads that fit is waiting for
input. -/
theorem loop_pending_inv (heap : Heap) (chunks : List (List Int)) (s s1 : RecvState)
    (received : List Int) (hinv : Inv s received)
    (hfit : readsFit heap s (chunks.map .data) = true)
    (h : loop heap s (chunks.map .data) = .pending s1) :
    Inv s1 (received ++ chunks.flatten) := by
  induction chunks generalizing s received with
  | nil =>
    have hguard := inv_guard s received hinv
    rw [List.map_nil, loop, if_pos hguard] at h
    have : s = s1 := by injection h
    simpa using this ▸ hinv
  | cons c chunks ih =>
    have hguard := inv_guard s received hinv
    rw [List.map_cons, readsFit_cons heap s _ _ hguard, Bool.and_eq_true] at hfit
    rw [List.map_cons, loop_cons heap s _ _ hguard] at h
    cases hf : findSub SENTINEL (List.takeWhile notNul c) with
    | none =>
      rcases iteration_data_step heap s received c hinv hfit.1 hf with hit | ⟨s2, hit, hinv2⟩
      · rw [hit] at h
        exact Outcome.noConfusion h
      · rw [hit] at h hfit
        simpa [List.append_assoc] using ih s2 (received ++ c) hinv2 hfit.2 h
    | some i =>
      obtain ⟨z, tail, _, hit⟩ := iteration_data_found heap s received c i hinv hfit.1 hf
      rw [hit] at h
      exact absurd h (finish_ne_pending _ s1)

/-- A read of zero bytes changes neither the block nor the counters, and the
loop asks for the next read. -/
theorem iteration_zero (heap : Heap) (s : RecvState) (received : List Int)
    (hinv : Inv s received) :
    iteration heap s (.data []) = .next { s with start := received.length } := by
  obtain ⟨htotal, ⟨z, tail, hshape, htail, hlen⟩, hhalf, hbig, hcap, hsmall⟩ := hinv
  rw [iteration_data heap s received [] tail z htotal hshape (by simp)
    (by simp only [List.length_nil]; omega)]
  unfold afterRecv
  have hs := strstr_fresh received [] tail z (by omega)
  simp only [List.append_nil, List.length_nil, Nat.sub_zero] at hs ⊢
  rw [hs]
  have hnone : findSub SENTINEL (List.takeWhile notNul []) = none := by
    simp [findSub, startsWith, SENTINEL]
  rw [hnone]
  simp only
  rw [if_neg (by omega)]
  cases s
  simp only at hshape htotal
  simp [hshape, htotal]

theorem inv_start (s : RecvState) (received : List Int) (n : Nat) (hinv : Inv s received) :
    Inv { s with start := n } received :=
  ⟨hinv.total, hinv.shape, hinv.half, hinv.big, hinv.cap, hinv.small⟩

theorem loop_zero_reads (heap : Heap) (s : RecvState) (received : List Int) (n : Nat)
    (hinv : Inv s received) :
    ∃ s1, loop heap s (List.replicate n (.data [])) = .pending s1 ∧
      s1.buffer = s.buffer ∧ s1.totalBytes = s.totalBytes ∧ s1.bufferlen = s.bufferlen := by
  induction n generalizing s with
  | zero =>
    have hguard := inv_guard s received hinv
    exact ⟨s, by rw [List.replicate_zero, loop, if_pos hguard], rfl, rfl, rfl⟩
  | succ n ih =>
    have hguard := inv_guard s received hinv
    rw [List.replicate_succ, loop_cons heap s _ _ hguard, iteration_zero heap s received hinv]
    exact ih _ (inv_start s received _ hinv)

/-! ### A run that doubles the block up to the range of `int` -/

theorem pending_guard (heap : Heap) (rs : List RecvResult) (s s1 : RecvState)
    (h : loop heap s rs = .pending s1) : s1.totalBytes < s1.bufferlen := by
  induction rs generalizing s with
  | nil =>
    rw [loop] at h
    split at h
    · rename_i hguard
      have : s = s1 := by injection h
      exact this ▸ hguard
    · exact absurd h (finish_ne_pending s s1)
  | cons r rs ih =>
    rw [loop] at h
    split at h
    · cases hit : iteration heap s r with
      | next s2 =>
        rw [hit] at h
        exact ih s2 h
      | found s2 =>
        rw [hit] at h
        exact absurd h (finish_ne_pending s2 s1)
      | fault =>
        rw [hit] at h
        exact Outcome.noConfusion h
    · exact absurd h (finish_ne_pending s s1)

/-- Reads that fit up to a point where the run waits for input fit beyond it
exactly when the reads that follow fit from there. -/
theorem readsFit_append_pending (heap : Heap) (rs extra : List RecvResult)
    (s s1 : RecvState) (hfit : readsFit heap s rs = true) (h : loop heap s rs = .pending s1) :
    readsFit heap s (rs ++ extra) = readsFit heap s1 extra := by
  induction rs generalizing s with
  | nil =>
    rw [loop] at h
    split at h
    · have : s = s1 := by injection h
      rw [this, List.nil_append]
    · exact absurd h (finish_ne_pending s s1)
  | cons r rs ih =>
    rw [loop] at h
    split at h
    · rename_i hguard
      rw [readsFit_cons heap s _ _ hguard, Bool.and_eq_true] at hfit
      rw [List.cons_append, readsFit_cons heap s _ _ hguard, hfit.1, Bool.true_and]
      cases hit : iteration heap s r with
      | next s2 =>
        rw [hit] at h hfit
        exact ih s2 hfit.2 h
      | found s2 =>
        rw [hit] at h
        exact absurd h (finish_ne_pending s2 s1)
      | fault =>
        rw [hit] at h
        exact Outcome.noConfusion h
    · exact absurd h (finish_ne_pending s s1)

theorem plainReads_lengths (lens : List Nat) : (plainReads lens).map List.length = lens := by
  induction lens with
  | nil => rfl
  | cons n lens ih =>
    rw [plainReads, List.map_cons, List.map_cons, List.length_replicate]
    exact congrArg (n :: ·) ih

theorem plainReads_flatten_length (lens : List Nat) :
    (plainReads lens).flatten.length = lens.sum := by
  induction lens with
  | nil => rfl
  | cons n lens ih =>
    rw [plainReads, List.map_cons, List.flatten_cons, List.length_append, List.length_replicate,
      List.sum_cons]
    exact congrArg (n + ·) ih

theorem plainReads_plain (lens : List Nat) :
    ∀ c ∈ plainReads lens, ∀ x ∈ c, x ≠ 64 ∧ x ≠ 0 := by
  intro c hc x hx
  obtain ⟨n, _, rfl⟩ := List.mem_map.1 hc
  have : x = 65 := (List.mem_replicate.1 hx).2
  subst this
  decide

theorem plainReads_ne_nil (lens : List Nat) (hpos : ∀ n ∈ lens, 0 < n) :
    ∀ c ∈ plainReads lens, c ≠ [] := by
  intro c hc hnil
  obtain ⟨n, hn, rfl⟩ := List.mem_map.1 hc
  have := hpos n hn
  have hl := congrArg List.length hnil
  simp only [List.length_replicate, List.length_nil] at hl
  omega

/-- The loop on reads without `'@'` and NUL whose lengths pass `sizesAfter`: the
reads fit, the run waits for input after them, and the capacity is the one
`sizesAfter` computes. -/
theorem loop_plain (heap : Heap) (hgr : ∀ n, heap.grants n = true)
    (chunks : List (List Int)) (s : RecvState) (received : List Int) (t b : Nat)
    (hinv : Inv s received) (hplain : ∀ c ∈ chunks, ∀ x ∈ c, x ≠ 64 ∧ x ≠ 0)
    (hsz : sizesAfter received.length s.bufferlen (chunks.map List.length) = some (t, b)) :
    readsFit heap s (chunks.map .data) = true ∧
      ∃ s1, loop heap s (chunks.map .data) = .pending s1 ∧
        Inv s1 (received ++ chunks.flatten) ∧ s1.bufferlen = b := by
  induction chunks generalizing s received with
  | nil =>
    have hguard := inv_guard s received hinv
    simp only [List.map_nil, sizesAfter, Option.some.injEq, Prod.mk.injEq] at hsz
    exact ⟨rfl, s, by rw [List.map_nil, loop, if_pos hguard], by simpa using hinv, hsz.2⟩
  | cons c chunks ih =>
    have hguard := inv_guard s received hinv
    have hc := hplain c (by simp)
    have hf : findSub SENTINEL (List.takeWhile notNul c) = none := by
      rw [takeWhile_nul_free _ (fun x hx => (hc x hx).2)]
      exact findSub_sentinel_none c (fun x hx => (hc x hx).1)
    rw [List.map_cons, sizesAfter] at hsz
    have htotal := hinv.total
    split at hsz
    · rename_i hroom
      have hfits : fits s (.data c) = true := by
        simp only [fits, requested, decide_eq_true_eq]
        omega
      have hok : s.bufferlen / 2 < (received ++ c).length →
          s.bufferlen * 2 ≤ INT_MAX ∧ heap.grants (s.bufferlen * 2) = true := by
        intro hgrow
        rw [List.length_append] at hgrow
        rw [if_pos hgrow] at hsz
        split at hsz
        · rename_i hint
          exact ⟨hint, hgr _⟩
        · exact Option.noConfusion hsz
      obtain ⟨s1, hit, hinv1⟩ := iteration_data_next heap s received c hinv hfits hf hok
      have hcap := (iteration_next_sizes heap s s1 c hit).2
      have hsz1 : sizesAfter (received ++ c).length s1.bufferlen (chunks.map List.length)
          = some (t, b) := by
        rw [hcap, List.length_append]
        by_cases hgrow : s.bufferlen / 2 < received.length + c.length
        · rw [if_pos (by omega)]
          rw [if_pos hgrow] at hsz
          split at hsz
          · exact hsz
          · exact Option.noConfusion hsz
        · rw [if_neg (by omega)]
          rw [if_neg hgrow] at hsz
          exact hsz
      obtain ⟨hfit1, s2, h2, hinv2, hb⟩ :=
        ih s1 (received ++ c) hinv1 (fun d hd => hplain d (by simp [hd])) hsz1
      refine ⟨?_, s2, ?_, by simpa [List.append_assoc] using hinv2, hb⟩
      · rw [List.map_cons, readsFit_cons heap s _ _ hguard, hfits, hit]
        exact hfit1
      · rw [List.map_cons, loop_cons heap s _ _ hguard, hit]
        exact h2
    · exact Option.noConfusion hsz

/-- The twenty reads `fillLens` fit and leave `receiveStream` waiting with
`totalBytes = 2^29 - 5` and `bufferlen = 2^30`; a read of six more bytes fits as
well, and the doubling it calls for leaves the range of `int`. -/
theorem fill_overflow (heap : Heap) (hgr : ∀ n, heap.grants n = true) :
    readsFit heap initState ((plainReads fillLens).map .data) = true ∧
      ∃ s, loop heap initState ((plainReads fillLens).map .data) = .pending s ∧
        s.totalBytes = 2 ^ 29 - 5 ∧ s.bufferlen = 2 ^ 30 ∧
        fits s (.data (List.replicate 6 65)) = true ∧
        iteration heap s (.data (List.replicate 6 65)) = .fault := by
  have hsz : sizesAfter ([] : List Int).length initState.bufferlen
      ((plainReads fillLens).map List.length) = some (2 ^ 29 - 5, 2 ^ 30) := by
    rw [plainReads_lengths]
    decide
  obtain ⟨hfit, s, hpend, hinv, hcap⟩ :=
    loop_plain heap hgr (plainReads fillLens) initState [] _ _ inv_init
      (plainReads_plain fillLens) hsz
  have hlen : ([] ++ (plainReads fillLens).flatten).length = 2 ^ 29 - 5 := by
    rw [List.nil_append, plainReads_flatten_length]
    decide
  have htotal : s.totalBytes = 2 ^ 29 - 5 := by
    rw [hinv.total, hlen]
    rfl
  have hfits : fits s (.data (List.replicate 6 65)) = true := by
    simp only [fits, requested, decide_eq_true_eq, List.length_replicate, hcap, htotal]
    decide
  have hf : findSub SENTINEL (List.takeWhile notNul (List.replicate 6 65)) = none := by decide
  refine ⟨hfit, s, hpend, htotal, hcap, hfits, ?_⟩
  apply iteration_data_fault heap s _ _ hinv hfits hf
  · rw [List.length_append, hlen, hcap, List.length_replicate]
    decide
  · left
    rw [hcap]
    decide

theorem receiveStream_granted (heap : Heap) (reads : List RecvResult)
    (h : heap.grants 1024 = true) : receiveStream heap reads = loop heap initState reads := by
  unfold receiveStream
  rw [if_pos h]

/-- A run that is waiting for input has been given its first block. -/
theorem receiveStream_pending (heap : Heap) (reads : List RecvResult) (s : RecvState)
    (h : receiveStream heap reads = .pending s) :
    heap.grants 1024 = true ∧ loop heap initState reads = .pending s := by
  unfold receiveStream at h
  split at h
  · rename_i hg
    exact ⟨hg, h⟩
  · exact Outcome.noConfusion h

theorem afterRecv_next_range (heap : Heap) (buffer : List Int) (start : Nat)
    (total : Int) (bufferlen : Nat) (s1 : RecvState) (hb : bufferlen ≤ INT_MAX)
    (h : afterRecv heap buffer start total bufferlen = .next s1) :
    s1.totalBytes = total ∧ s1.bufferlen ≤ INT_MAX := by
  unfold afterRecv at h
  split at h
  · exact Iter.noConfusion h
  · exact Iter.noConfusion h
  · split at h
    · split at h
      · exact Iter.noConfusion h
      · rename_i hov
        simp only at h
        split at h
        · split at h
          · exact Iter.noConfusion h
          · split at h
            · exact Iter.noConfusion h
            · injection h with h
              subst h
              exact ⟨rfl, Nat.le_of_not_lt hov⟩
        · exact Iter.noConfusion h
    · injection h with h
      subst h
      exact ⟨rfl, hb⟩

theorem iteration_next_range (heap : Heap) (s s1 : RecvState) (r : RecvResult)
    (hb : s.bufferlen ≤ INT_MAX) (ht : s.totalBytes ≤ INT_MAX)
    (h : iteration heap s r = .next s1) :
    s1.bufferlen ≤ INT_MAX ∧ s1.totalBytes ≤ INT_MAX := by
  unfold iteration at h
  split at h
  · exact Iter.noConfusion h
  · simp only at h
    split at h
    · split at h
      · exact Iter.noConfusion h
      · split at h
        · exact Iter.noConfusion h
        · rename_i hsum
          obtain ⟨h1, h2⟩ := afterRecv_next_range heap _ _ _ _ s1 hb h
          exact ⟨h2, by rw [h1]; omega⟩
    · obtain ⟨h1, h2⟩ := afterRecv_next_range heap _ _ _ _ s1 hb h
      exact ⟨h2, by rw [h1]; omega⟩

/-- The counters of a run that waits for input are values of `int`, whatever
the reads were. -/
theorem loop_int_range (heap : Heap) (rs : List RecvResult) (s s1 : RecvState)
    (hb : s.bufferlen ≤ INT_MAX) (ht : s.totalBytes ≤ INT_MAX)
    (h : loop heap s rs = .pending s1) :
    s1.bufferlen ≤ INT_MAX ∧ s1.totalBytes ≤ INT_MAX := by
  induction rs generalizing s with
  | nil =>
    rw [loop] at h
    split at h
    · have : s = s1 := by injection h
      exact this ▸ ⟨hb, ht⟩
    · exact absurd h (finish_ne_pending s s1)
  | cons r rs ih =>
    rw [loop] at h
    split at h
    · cases hit : iteration heap s r with
      | next s2 =>
        rw [hit] at h
        obtain ⟨h1, h2⟩ := iteration_next_range heap s s2 r hb ht hit
        exact ih s2 h1 h2 h
      | found s2 =>
        rw [hit] at h
        exact absurd h (finish_ne_pending s2 s1)
      | fault =>
        rw [hit] at h
        exact Outcome.noConfusion h
    · exact absurd h (finish_ne_pending s s1)

/-! ## Frame transport: `receiveStream` -/

/-- C5 (the code does not do this): the bytes `"AB@@@"` delivered as `"AB@@"`
followed by `"@"`.  Both reads fit the requested lengths, yet after them the
loop has not found the terminating sequence and waits for a third read, also
when the peer then delivers nothing more; delivered by one read, the same bytes
yield `"AB"`. -/
theorem receiveStream_split_sentinel_pending :
    readsFit (ampleHeap 0) initState [.data (chars "AB@@"), .data (chars "@")] = true ∧
    receiveStream (ampleHeap 0) [.data (chars "AB@@"), .data (chars "@")]
      = .pending { buffer := chars "AB@@@" ++ List.replicate 1019 0, start := 4,
                   totalBytes := 5, bufferlen := 1024 } ∧
    receiveStream (ampleHeap 0) [.data (chars "AB@@"), .data (chars "@"), .data [], .data []]
      = .pending { buffer := chars "AB@@@" ++ List.replicate 1019 0, start := 5,
                   totalBytes := 5, bufferlen := 1024 } ∧
    receiveStream (ampleHeap 0) [.data (chars "AB@@@")] = .returned (chars "AB") := by
  decide!

/-- C6 as stated fails for a long payload: twenty reads of `'A'` bytes, each as
long as `recv` asks for, bring `totalBytes` to `2^29 - 5` and the capacity to
`2^30`; a read of six more bytes takes `totalBytes` beyond half of the capacity,
and the doubling `bufferlen * 2` leaves the range of `int`.  The payload of
`2^29 + 1` bytes is free of `'@'` and NUL, every read is non-empty and fits, the
terminating sequence arrives in one read of its own, `malloc` and `realloc`
never fail, and yet `receiveStream` does not return the payload: its behaviour
is undefined before the last read.  A short payload is not returned either when
`realloc` fails: 600 bytes `'A'` and then `"@@@"`, on a heap that has no block of
2048 bytes to give, end in a `memset` through a null pointer. -/
theorem receiveStream_overflow_counterexample :
    (∀ b ∈ (plainReads (fillLens ++ [6])).flatten, b ≠ 64 ∧ b ≠ 0) ∧
    (∀ c ∈ plainReads (fillLens ++ [6]) ++ [[] ++ SENTINEL], c ≠ []) ∧
    (plainReads (fillLens ++ [6])).flatten.length = 2 ^ 29 + 1 ∧
    readsFit (ampleHeap 0) initState
      ((plainReads (fillLens ++ [6]) ++ [[] ++ SENTINEL]).map .data) = true ∧
    receiveStream (ampleHeap 0)
      ((plainReads (fillLens ++ [6]) ++ [[] ++ SENTINEL]).map .data) = .fault ∧
    readsFit (tightHeap 1024) initState
      (([List.replicate 600 65] ++ [[] ++ SENTINEL]).map .data) = true ∧
    receiveStream (tightHeap 1024)
      (([List.replicate 600 65] ++ [[] ++ SENTINEL]).map .data) = .fault := by
  obtain ⟨hfit, s, hpend, _, _, hfits, hfault⟩ := fill_overflow (ampleHeap 0) (fun _ => rfl)
  have hreads : (plainReads (fillLens ++ [6]) ++ [[] ++ SENTINEL]).map RecvResult.data
      = (plainReads fillLens).map RecvResult.data
          ++ [.data (List.replicate 6 65), .data SENTINEL] := by
    simp [plainReads]
  have hguard := pending_guard (ampleHeap 0) _ initState s hpend
  refine ⟨?_, ?_, ?_, ?_, ?_, by decide!, by decide!⟩
  · intro b hb
    obtain ⟨c, hc, hbc⟩ := List.mem_flatten.1 hb
    exact plainReads_plain _ c hc b hbc
  · intro c hc
    rcases List.mem_append.1 hc with h | h
    · exact plainReads_ne_nil _ (by decide) c h
    · simp only [List.mem_singleton] at h
      rw [h]
      decide
  · rw [plainReads_flatten_length]
    decide
  · rw [hreads, readsFit_append_pending (ampleHeap 0) _ _ initState s hfit hpend,
      readsFit_cons (ampleHeap 0) s _ _ hguard, hfits, hfault]
    rfl
  · rw [receiveStream_granted (ampleHeap 0) _ rfl, hreads,
      loop_append_pending (ampleHeap 0) _ _ initState s hpend,
      loop_cons (ampleHeap 0) s _ _ hguard, hfault]

/-- C6 as amended: for every payload without `'@'` and NUL bytes and every way of
delivering `payload ++ "@@@"` by reads `pre` followed by one read `t ++ "@@@"`
that carries the whole terminating sequence, each read being at most as long as
`recv` was asked for and the reads `pre` holding at most `2^29` bytes in all,
`receiveStream` returns exactly the payload at that read when `malloc` and
`realloc` do not fail: whatever reads would follow (`more`) are not consumed.
The bound holds for every payload of at most `2^29` bytes; the payload may
exceed the initial capacity of 1024 bytes, and the statement also covers reads
of zero bytes among `pre`. -/
theorem receiveStream_returns_payload (heap : Heap) (payload : List Int)
    (pre : List (List Int)) (t : List Int) (more : List RecvResult)
    (hpay : ∀ b ∈ payload, b ≠ 64 ∧ b ≠ 0)
    (hsplit : (pre ++ [t ++ SENTINEL]).flatten = payload ++ SENTINEL)
    (hlen : pre.flatten.length ≤ 2 ^ 29)
    (hgr : ∀ n, heap.grants n = true)
    (hfit : readsFit heap initState ((pre ++ [t ++ SENTINEL]).map .data) = true) :
    receiveStream heap ((pre ++ [t ++ SENTINEL]).map .data ++ more) = .returned payload := by
  have hjoin : pre.flatten ++ t = payload := by
    have : (pre.flatten ++ t) ++ SENTINEL = payload ++ SENTINEL := by
      simpa [List.append_assoc] using hsplit
    exact List.append_cancel_right this
  have hpre : ∀ c ∈ pre, ∀ b ∈ c, b ≠ 64 ∧ b ≠ 0 := by
    intro c hc b hb
    apply hpay
    rw [← hjoin]
    exact List.mem_append_left _ (List.mem_flatten.2 ⟨c, hc, hb⟩)
  have ht : ∀ b ∈ t, b ≠ 64 ∧ b ≠ 0 := by
    intro b hb
    apply hpay
    rw [← hjoin]
    exact List.mem_append_right _ hb
  rw [receiveStream_granted heap _ (hgr _),
    loop_whole_sentinel heap pre t more initState [] inv_init (by simp) hpre ht hgr
      (by simpa using hlen) hfit]
  simp [hjoin]

/-- C6 as amended, at a payload of 1302 bytes delivered by reads of 600, 700 and
5 bytes, the last one `"CD@@@"`: the block is doubled after the second read. -/
theorem receiveStream_returns_payload_witness :
    receiveStream (ampleHeap 7)
        (([List.replicate 600 65, List.replicate 700 66] ++ [chars "CD" ++ SENTINEL]).map .data
          ++ [.data (chars "EF")])
      = .returned (List.replicate 600 65 ++ List.replicate 700 66 ++ chars "CD") :=
  receiveStream_returns_payload (ampleHeap 7)
    (List.replicate 600 65 ++ List.replicate 700 66 ++ chars "CD")
    [List.replicate 600 65, List.replicate 700 66] (chars "CD") [.data (chars "EF")]
    (by decide!)
    (by decide!)
    (by decide!)
    (fun _ => rfl)
    (by decide!)

/-- C7 as stated fails: after a read of zero bytes `receiveStream` has neither
returned nor reported anything; it consumes the reads that follow, and returns a
payload when a later one carries the terminating sequence. -/
theorem receiveStream_zero_read_counterexample :
    receiveStream (ampleHeap 0) [.data []] = .pending initState ∧
    receiveStream (ampleHeap 0) [.data [], .data [], .data []] = .pending initState ∧
    receiveStream (ampleHeap 0) [.data [], .data (chars "AB@@@")] = .returned (chars "AB") := by
  decide!

/-- C7 as amended: when `receiveStream` is still waiting for the terminating
sequence after reads that fit, any number of reads of zero bytes leaves it
waiting, with the same block contents, `totalBytes` and `bufferlen`; no error is
reported and the function does not return. -/
theorem receiveStream_zero_reads_keep_waiting (heap : Heap) (chunks : List (List Int))
    (s : RecvState) (n : Nat)
    (hfit : readsFit heap initState (chunks.map .data) = true)
    (hpend : receiveStream heap (chunks.map .data) = .pending s) :
    ∃ s1, receiveStream heap (chunks.map .data ++ List.replicate n (.data [])) = .pending s1 ∧
      s1.buffer = s.buffer ∧ s1.totalBytes = s.totalBytes ∧ s1.bufferlen = s.bufferlen := by
  obtain ⟨hg, hpend⟩ := receiveStream_pending heap _ s hpend
  have hinv := loop_pending_inv heap chunks initState s [] inv_init hfit hpend
  rw [receiveStream_granted heap _ hg, loop_append_pending heap _ _ initState s hpend]
  exact loop_zero_reads heap s _ n hinv

/-- C7 as amended, after the read `"AB"`: four reads of zero bytes later the
function still waits. -/
theorem receiveStream_zero_reads_keep_waiting_witness :
    ∃ s1, receiveStream (ampleHeap 0)
        ([chars "AB"].map .data ++ List.replicate 4 (.data [])) = .pending s1 ∧
      s1.buffer = chars "AB" ++ List.replicate 1022 0 ∧ s1.totalBytes = 2 ∧
      s1.bufferlen = 1024 :=
  receiveStream_zero_reads_keep_waiting (ampleHeap 0) [chars "AB"]
    { buffer := chars "AB" ++ List.replicate 1022 0, start := 0, totalBytes := 2,
      bufferlen := 1024 } 4
    (by decide!)
    (by decide!)

/-! ### Lemmas on substrings and on the daemon's steps -/

theorem startsWith_iff (needle hay : List Int) :
    startsWith needle hay = true ↔ ∃ post, hay = needle ++ post := by
  induction needle generalizing hay with
  | nil => simp [startsWith]
  | cons n ns ih =>
    cases hay with
    | nil => simp [startsWith]
    | cons h hs =>
      simp only [startsWith, Bool.and_eq_true, beq_iff_eq, ih, List.cons_append,
        List.cons.injEq]
      constructor
      · rintro ⟨rfl, post, rfl⟩
        exact ⟨post, rfl, rfl⟩
      · rintro ⟨post, rfl, rfl⟩
        exact ⟨rfl, post, rfl⟩

theorem occursIn_nil (needle : List Int) : occursIn needle [] ↔ startsWith needle [] = true := by
  rw [startsWith_iff]
  constructor
  · rintro ⟨pre, post, h⟩
    have h1 : pre ++ needle ++ post = [] := h.symm
    simp only [List.append_eq_nil] at h1
    exact ⟨[], by simp [h1.1.2]⟩
  · rintro ⟨post, h⟩
    exact ⟨[], post, by simpa using h⟩

theorem occursIn_cons (needle : List Int) (h : Int) (hs : List Int) :
    occursIn needle (h :: hs) ↔ startsWith needle (h :: hs) = true ∨ occursIn needle hs := by
  rw [startsWith_iff]
  constructor
  · rintro ⟨pre, post, e⟩
    cases pre with
    | nil => exact Or.inl ⟨post, by simpa using e⟩
    | cons p pre =>
      simp only [List.cons_append, List.cons.injEq] at e
      exact Or.inr ⟨pre, post, e.2⟩
  · rintro (⟨post, e⟩ | ⟨pre, post, e⟩)
    · exact ⟨[], post, by simpa using e⟩
    · exact ⟨h :: pre, post, by simp [e]⟩

/-- The search finds nothing exactly when the needle does not occur. -/
theorem findSub_eq_none_iff (needle hay : List Int) :
    findSub needle hay = none ↔ ¬ occursIn needle hay := by
  induction hay with
  | nil =>
    rw [occursIn_nil, findSub]
    split <;> simp_all
  | cons h hs ih =>
    rw [occursIn_cons, findSub]
    split
    · simp_all
    · rename_i hsw
      simp only [Option.map_eq_none', ih, hsw, false_or, Bool.false_eq_true]

theorem step_inv (d d1 : Daemon) (e : Event) (hinv : DaemonInv d) (h : step d e = some d1) :
    DaemonInv d1 := by
  obtain ⟨hcount, hbound, hroom⟩ := hinv
  obtain ⟨loc, pc, running, zombies⟩ := d
  simp only [active, MAX_PROC] at hcount hbound hroom
  cases e <;> cases loc <;>
    simp only [step, reduceCtorEq, if_true, if_false, or_true, or_false, true_or] at h
  all_goals first
    | exact Option.noConfusion h
    | (injection h with h
       subst h
       refine ⟨?_, ?_, ?_⟩ <;>
         simp only [active, MAX_PROC, reap, reduceCtorEq, if_true, if_false, imp_false,
           not_false_eq_true, forall_const, not_true_eq_false, false_imp_iff] at * <;>
         first
           | omega
           | (split <;> omega))
    | (split at h <;> first
        | exact Option.noConfusion h
        | (injection h with h
           subst h
           refine ⟨?_, ?_, ?_⟩ <;>
             simp only [active, MAX_PROC, reap, reduceCtorEq, if_true, if_false, imp_false,
               not_false_eq_true, forall_const, not_true_eq_false, false_imp_iff] at * <;>
             omega)
        | (split at h <;> first
            | exact Option.noConfusion h
            | (injection h with h
               subst h
               refine ⟨?_, ?_, ?_⟩ <;>
                 simp only [active, MAX_PROC, reduceCtorEq, if_true, if_false, imp_false,
                   not_false_eq_true, forall_const, not_true_eq_false, false_imp_iff] at * <;>
                 omega)))

theorem inv_initDaemon : DaemonInv initDaemon :=
  ⟨by decide, by decide, fun h => Loc.noConfusion h⟩

theorem runDaemon_inv (events : List Event) (d d1 : Daemon) (hinv : DaemonInv d)
    (h : runDaemon d events = some d1) : DaemonInv d1 := by
  induction events generalizing d with
  | nil =>
    simp only [runDaemon, Option.some.injEq] at h
    exact h ▸ hinv
  | cons e es ih =>
    simp only [runDaemon] at h
    cases hs : step d e with
    | none => simp [hs] at h
    | some d2 =>
      rw [hs] at h
      exact ih d2 (step_inv d d2 e hinv hs) h

/-! ## Frame transport: `send_to` -/

/-- C8 (the code does not do this): for the empty message the loop body is never
entered, so no `send` call is made and `n` is read without ever having been
assigned; `send_to` returns `-1` when the stale value is `-1` and `0` otherwise,
whatever the results a `send` call would have had. -/
theorem send_to_empty_message :
    send_to (-1) [] [] = .returned (-1) [] ∧
    send_to (-1) [] [0, 3] = .returned (-1) [] ∧
    send_to 0 [] [] = .returned 0 [] ∧
    send_to 7 [] [-1] = .returned 0 [] := by
  decide

/-! ## Worker pool -/

/-- C9: in every state the daemon reaches from the start of its loop, under any
sequence of connection arrivals, worker terminations and steps of the parent,
the counter `process_count` and the number of workers forked and not yet reaped
are at most `MAX_PROC = 5`; a connection can be accepted only when
`process_count < 5`, and the `fork` that follows (the counter being already
incremented for the new worker) only when fewer than 5 workers are active. -/
theorem daemon_workers_bounded (events : List Event) (d : Daemon)
    (h : runDaemon initDaemon events = some d) :
    d.process_count ≤ MAX_PROC ∧ (active d : Int) ≤ MAX_PROC ∧
      (∀ d1, step d .connect = some d1 → d.process_count < MAX_PROC) ∧
      (∀ d1, step d .fork = some d1 → (active d : Int) < MAX_PROC) := by
  obtain ⟨hcount, hbound, hroom⟩ := runDaemon_inv events initDaemon d inv_initDaemon h
  refine ⟨hbound, ?_, ?_, ?_⟩
  · split at hcount <;> omega
  · intro d1 hstep
    apply hroom
    simp only [step] at hstep
    split at hstep
    · assumption
    · exact Option.noConfusion hstep
  · intro d1 hstep
    simp only [step] at hstep
    split at hstep
    · rename_i hl
      rw [if_pos hl] at hcount
      omega
    · exact Option.noConfusion hstep

/-- C9 after a burst: five connections are accepted one after the other, the
parent then finds the pool full and blocks in `wait`, where five workers are
active and no connection can be accepted; and once one of them has terminated
and been reaped the parent is back in `accept` with four workers counted, one of
which has terminated in the meantime. -/
theorem daemon_workers_bounded_witness :
    ((5 : Int) ≤ MAX_PROC ∧ ((5 : Nat) : Int) ≤ MAX_PROC ∧
      (∀ d1, step { loc := .blockWait, process_count := 5, running := 5, zombies := 0 }
        .connect = some d1 → (5 : Int) < MAX_PROC) ∧
      (∀ d1, step { loc := .blockWait, process_count := 5, running := 5, zombies := 0 }
        .fork = some d1 → ((5 : Nat) : Int) < MAX_PROC)) ∧
    ((4 : Int) ≤ MAX_PROC ∧ ((4 : Nat) : Int) ≤ MAX_PROC ∧
      (∀ d1, step { loc := .accepting, process_count := 4, running := 3, zombies := 1 }
        .connect = some d1 → (4 : Int) < MAX_PROC) ∧
      (∀ d1, step { loc := .accepting, process_count := 4, running := 3, zombies := 1 }
        .fork = some d1 → ((4 : Nat) : Int) < MAX_PROC)) :=
  ⟨daemon_workers_bounded
      [.test, .connect, .fork, .waitpid, .test, .connect, .fork, .waitpid,
       .test, .connect, .fork, .waitpid, .test, .connect, .fork, .waitpid,
       .test, .connect, .fork, .waitpid, .test]
      { loc := .blockWait, process_count := 5, running := 5, zombies := 0 } (by decide),
    daemon_workers_bounded
      [.test, .connect, .fork, .waitpid, .test, .connect, .fork, .waitpid,
       .test, .connect, .fork, .waitpid, .test, .connect, .fork, .waitpid,
       .test, .connect, .fork, .waitpid, .test, .childExit, .wait,
       .waitpid, .waitpid, .test, .childExit]
      { loc := .accepting, process_count := 4, running := 3, zombies := 1 } (by decide)⟩

/-! ## Session worker -/

/-- C10: a worker whose first frame does not contain `"otp_dec"` sends `"BAD"`
and `"@@@"`, closes the connection and exits with code 1, with no further
receive, no call of `decrypt` and no result sent; one whose first frame contains
`"otp_dec"` sends `"GOOD"` and `"@@@"`, then receives the ciphertext frame and
the key frame in that order, and only then calls `decrypt` and answers. -/
theorem child_handshake (name : List Int) :
    (¬ occursIn (chars "otp_dec") name → ∀ rest : List (List Int),
      process_child (name :: rest)
        = [.receive name, .send (chars "BAD"), .send (chars "@@@"), .sleep 1, .close,
           .exitWith 1]) ∧
    (occursIn (chars "otp_dec") name → ∀ (ciphertext key : List Int) (rest : List (List Int)),
      process_child (name :: ciphertext :: key :: rest)
        = [.receive name, .send (chars "GOOD"), .send (chars "@@@"), .sleep 1,
           .receive ciphertext, .receive key, .decryptCall ciphertext key] ++
          (match decrypt ciphertext key with
           | none => [.aborted]
           | some plaintext =>
             [.send plaintext, .send (chars "@@@"), .sleep 1, .close, .exitWith 0])) := by
  constructor
  · intro h rest
    have hn : findSub (chars "otp_dec") name = none := (findSub_eq_none_iff _ _).2 h
    simp [process_child, hn]
  · intro h ciphertext key rest
    have hn : ¬ findSub (chars "otp_dec") name = none :=
      fun e => (findSub_eq_none_iff _ _).1 e h
    simp only [process_child, if_neg hn]
    rfl

/-- C10 at the role tags `"otp_enc"` (rejected) and `"otp_dec"` (accepted, then the
ciphertext `"NPYX"` and the key `"AAAA"`). -/
theorem child_handshake_witness :
    process_child [chars "otp_enc", chars "NPYX", chars "AAAA"]
      = [.receive (chars "otp_enc"), .send (chars "BAD"), .send (chars "@@@"), .sleep 1,
         .close, .exitWith 1] ∧
    process_child [chars "otp_dec", chars "NPYX", chars "AAAA"]
      = [.receive (chars "otp_dec"), .send (chars "GOOD"), .send (chars "@@@"), .sleep 1,
         .receive (chars "NPYX"), .receive (chars "AAAA"),
         .decryptCall (chars "NPYX") (chars "AAAA")] ++
        (match decrypt (chars "NPYX") (chars "AAAA") with
         | none => [.aborted]
         | some plaintext =>
           [.send plaintext, .send (chars "@@@"), .sleep 1, .close, .exitWith 0]) :=
  ⟨(child_handshake (chars "otp_enc")).1
      ((findSub_eq_none_iff _ _).1 (by decide)) [chars "NPYX", chars "AAAA"],
    (child_handshake (chars "otp_dec")).2 ⟨[], [], by decide⟩ (chars "NPYX") (chars "AAAA") []⟩

/-! ## Further properties of the frame transport -/

/-- Reads none of which holds the terminating sequence leave the loop waiting. -/
theorem loop_no_sentinel (heap : Heap) (chunks : List (List Int)) (s : RecvState)
    (received : List Int) (hinv : Inv s received)
    (hno : ∀ c ∈ chunks, findSub SENTINEL (List.takeWhile notNul c) = none)
    (hgr : ∀ n, heap.grants n = true)
    (hlen : (received ++ chunks.flatten).length ≤ 2 ^ 29)
    (hfit : readsFit heap s (chunks.map .data) = true) :
    ∃ s1, loop heap s (chunks.map .data) = .pending s1 ∧ Inv s1 (received ++ chunks.flatten) := by
  induction chunks generalizing s received with
  | nil =>
    have hguard := inv_guard s received hinv
    exact ⟨s, by rw [List.map_nil, loop, if_pos hguard], by simpa using hinv⟩
  | cons c chunks ih =>
    have hguard := inv_guard s received hinv
    rw [List.map_cons, readsFit_cons heap s _ _ hguard, Bool.and_eq_true] at hfit
    have hlen1 : received.length + c.length + chunks.flatten.length ≤ 2 ^ 29 := by
      simp only [List.flatten_cons, List.length_append] at hlen
      omega
    obtain ⟨s2, hit, hinv2⟩ :=
      iteration_data_next heap s received c hinv hfit.1 (hno c (by simp))
        (fun hgrow => ⟨by
          simp only [List.length_append] at hgrow
          unfold INT_MAX
          omega, hgr _⟩)
    rw [hit] at hfit
    rw [List.map_cons, loop_cons heap s _ _ hguard, hit]
    obtain ⟨s1, h1, hinv1⟩ := ih s2 (received ++ c) hinv2 (fun d hd => hno d (by simp [hd]))
      (by simp only [List.length_append]; omega) hfit.2
    exact ⟨s1, h1, by simpa [List.append_assoc] using hinv1⟩

/-- For every payload without `'@'` and NUL and every delivery of
`payload ++ "@@@"` in which the terminating sequence is cut in two, the first part
`a` ending one read and the second part `b` being the next read, `receiveStream`
does not return: it waits for another read, and goes on waiting however many
reads of zero bytes follow.  The stream is at most `2^29` bytes long and `malloc`
and `realloc` do not fail. -/
theorem receiveStream_split_sentinel_never_returns (heap : Heap)
    (pre : List (List Int)) (t a b : List Int) (n : Nat)
    (hpre : ∀ c ∈ pre, ∀ x ∈ c, x ≠ 64 ∧ x ≠ 0) (ht : ∀ x ∈ t, x ≠ 64 ∧ x ≠ 0)
    (hab : a ++ b = SENTINEL) (ha : a ≠ []) (hb : b ≠ [])
    (hsize : (pre ++ [t ++ a, b]).flatten.length ≤ 2 ^ 29)
    (hgr : ∀ n, heap.grants n = true)
    (hfit : readsFit heap initState ((pre ++ [t ++ a, b]).map .data) = true) :
    ∃ s1, receiveStream heap ((pre ++ [t ++ a, b]).map .data ++ List.replicate n (.data []))
      = .pending s1 := by
  have hlen : a.length + b.length = 3 := by
    have := congrArg List.length hab
    simpa [SENTINEL] using this
  have hla : 0 < a.length := List.length_pos.2 ha
  have hlb : 0 < b.length := List.length_pos.2 hb
  have hno : ∀ c ∈ pre ++ [t ++ a, b], findSub SENTINEL (List.takeWhile notNul c) = none := by
    intro c hc
    rcases List.mem_append.1 hc with h | h
    · rw [takeWhile_nul_free _ (fun x hx => (hpre c h x hx).2)]
      exact findSub_sentinel_none c (fun x hx => (hpre c h x hx).1)
    · have hsub : ∀ l : List Int, l.length < 3 →
          findSub SENTINEL (List.takeWhile notNul l) = none := by
        intro l hl
        apply findSub_sentinel_short
        exact lt_of_le_of_lt (List.takeWhile_sublist notNul).length_le hl
      simp only [List.mem_cons, List.mem_singleton, List.not_mem_nil, or_false] at h
      rcases h with h | h
      · subst h
        have ha0 : ∀ x ∈ a, x ≠ 0 := by
          intro x hx
          have : x ∈ SENTINEL := hab ▸ List.mem_append_left b hx
          simp [SENTINEL] at this
          omega
        rw [takeWhile_nul_free _ (mem_append_nul_free _ _ (fun x hx => (ht x hx).2) ha0),
          findSub_sentinel_append t a (fun x hx => (ht x hx).1),
          findSub_sentinel_short a (by omega)]
        rfl
      · subst h
        exact hsub c (by omega)
  obtain ⟨s1, h1, hinv1⟩ := loop_no_sentinel heap _ initState [] inv_init hno hgr
    (by simpa using hsize) hfit
  rw [receiveStream_granted heap _ (hgr _), loop_append_pending heap _ _ initState s1 h1]
  obtain ⟨s2, h2, _⟩ := loop_zero_reads heap s1 _ n hinv1
  exact ⟨s2, h2⟩

/-- The split delivery `"HELLO" ++ "@"`, then `"@@"`. -/
theorem receiveStream_split_sentinel_never_returns_witness :
    ∃ s1, receiveStream (ampleHeap 0)
        (([] ++ [chars "HELLO" ++ [64], [64, 64]]).map .data ++ List.replicate 3 (.data []))
      = .pending s1 :=
  receiveStream_split_sentinel_never_returns (ampleHeap 0) [] (chars "HELLO") [64] [64, 64] 3
    (by simp) (by decide) (by decide) (by decide) (by decide) (by decide) (fun _ => rfl)
    (by decide!)

/-- While `receiveStream` waits for more input after reads that fit, `totalBytes`
is the number of bytes received, at most half of the block is in use, the length
the next `recv` asks for is positive, and the capacity is still 1024 or is less
than four times the number of bytes received: for a stream shorter than `2^29`
bytes every counter of the function stays below `2^31`. -/
theorem receiveStream_sizes (heap : Heap) (chunks : List (List Int)) (s : RecvState)
    (hfit : readsFit heap initState (chunks.map .data) = true)
    (hpend : receiveStream heap (chunks.map .data) = .pending s) :
    s.totalBytes = (chunks.flatten.length : Nat) ∧
      s.totalBytes ≤ ((s.bufferlen / 2 : Nat) : Int) ∧
      0 < requested s ∧
      (s.bufferlen = 1024 ∨ s.bufferlen < 4 * chunks.flatten.length) ∧
      (chunks.flatten.length < 2 ^ 29 → s.bufferlen < 2 ^ 31) := by
  have hinv := loop_pending_inv heap chunks initState s [] inv_init hfit
    (receiveStream_pending heap _ s hpend).2
  obtain ⟨htotal, _, hhalf, hbig, hcap, _⟩ := hinv
  simp only [List.nil_append] at htotal hhalf hcap
  refine ⟨htotal, by omega, by unfold requested; omega, hcap, ?_⟩
  intro hlt
  rcases hcap with h | h
  · rw [h]; decide
  · omega

/-- The sizes after the reads `"AB"` and `"CD"`. -/
theorem receiveStream_sizes_witness :
    ((4 : Int) = (([chars "AB", chars "CD"] : List (List Int)).flatten.length : Nat)) ∧
      (4 : Int) ≤ ((1024 / 2 : Nat) : Int) ∧
      0 < requested { buffer := chars "ABCD" ++ List.replicate 1020 0, start := 2,
                      totalBytes := 4, bufferlen := 1024 } ∧
      (1024 = 1024 ∨ 1024 < 4 * ([chars "AB", chars "CD"] : List (List Int)).flatten.length) ∧
      (([chars "AB", chars "CD"] : List (List Int)).flatten.length < 2 ^ 29 → 1024 < 2 ^ 31) :=
  receiveStream_sizes (ampleHeap 7) [chars "AB", chars "CD"]
    { buffer := chars "ABCD" ++ List.replicate 1020 0, start := 2, totalBytes := 4,
      bufferlen := 1024 }
    (by decide!) (by decide!)

/-- Whatever the reads are, fitting or not, `recv` errors included: while
`receiveStream` waits for input its counters `bufferlen` and `totalBytes` hold
values of `int`. -/
theorem receiveStream_int_range (heap : Heap) (reads : List RecvResult) (s : RecvState)
    (h : receiveStream heap reads = .pending s) :
    s.bufferlen ≤ INT_MAX ∧ s.totalBytes ≤ INT_MAX :=
  loop_int_range heap reads initState s (by decide) (by decide)
    (receiveStream_pending heap reads s h).2

/-- The counters after the read `"AB"` and a `recv` error. -/
theorem receiveStream_int_range_witness :
    (1024 : Nat) ≤ INT_MAX ∧ (1 : Int) ≤ INT_MAX :=
  receiveStream_int_range (ampleHeap 0) [.data (chars "AB"), .error]
    { buffer := chars "AB" ++ List.replicate 1022 0, start := 2, totalBytes := 1,
      bufferlen := 1024 }
    (by decide!)

theorem take_extend (message : List Int) (a b : Nat) :
    message.take a ++ (message.drop a).take b = message.take (a + b) := by
  rw [List.take_add]

theorem sendFinish_done (message : List Int) (s : SendState) (ret : Int) (wire : List Int)
    (hinv : SendInv message s) (hn : s.n ≠ -1) (hguard : ¬ s.total < message.length)
    (h : sendFinish s = .returned ret wire) : ret ≠ -1 ∧ ret = 0 ∧ wire = message := by
  simp only [sendFinish, if_neg hn, SendOutcome.returned.injEq] at h
  obtain ⟨hlow, hup, _, hwire⟩ := hinv
  have htot : s.total.toNat = message.length := by omega
  refine ⟨by omega, h.1.symm, ?_⟩
  rw [← h.2, hwire, htot, List.take_length]

/-- The loop of `send_to`, once `n` is sure to be assigned before it is read. -/
theorem sendLoop_spec (message : List Int) (results : List Int) (s : SendState)
    (hinv : SendInv message s) (hn : s.total < message.length ∨ s.n ≠ -1)
    (hfit : sendsFit message s results = true) (ret : Int) (wire : List Int)
    (h : sendLoop message s results = .returned ret wire) :
    (ret = -1 ↔ (-1 : Int) ∈ sendCalls message s results) ∧
      (ret ≠ -1 → ret = 0 ∧ wire = message) := by
  induction results generalizing s with
  | nil =>
    rw [sendLoop] at h
    split at h
    · exact SendOutcome.noConfusion h
    · rename_i hguard
      obtain ⟨h1, h2, h3⟩ := sendFinish_done message s ret wire hinv (hn.resolve_left hguard)
        hguard h
      exact ⟨by simp [sendCalls, h1], fun _ => ⟨h2, h3⟩⟩
  | cons r rs ih =>
    rw [sendLoop] at h
    rw [sendsFit] at hfit
    rw [sendCalls]
    split at h
    · rename_i hguard
      rw [if_pos hguard] at hfit ⊢
      split at h
      · rename_i hr
        simp only [sendFinish, if_true, SendOutcome.returned.injEq, hr] at h
        rw [if_pos hr]
        exact ⟨by simp [h.1.symm, hr], fun hne => absurd h.1.symm hne⟩
      · rename_i hr
        rw [if_neg hr] at hfit ⊢
        simp only [Bool.and_eq_true, decide_eq_true_eq] at hfit
        obtain ⟨⟨hr0, hrl⟩, hfit1⟩ := hfit
        obtain ⟨hlow, hup, hleft, hwire⟩ := hinv
        have hinv1 : SendInv message
            { total := s.total + r, bytesleft := s.bytesleft - r, n := r,
              wire := s.wire ++ (message.drop s.total.toNat).take r.toNat } := by
          refine ⟨by simp only; omega, by simp only; omega, by simp only; omega, ?_⟩
          simp only
          rw [hwire, take_extend, Int.toNat_add hlow hr0]
        have := ih _ hinv1 (Or.inr hr) hfit1 h
        refine ⟨?_, this.2⟩
        rw [this.1, List.mem_cons]
        constructor
        · exact fun hm => Or.inr hm
        · rintro (hm | hm)
          · exact absurd hm.symm hr
          · exact hm
    · rename_i hguard
      rw [if_neg hguard]
      obtain ⟨h1, h2, h3⟩ := sendFinish_done message s ret wire hinv (hn.resolve_left hguard)
        hguard h
      exact ⟨by simp [h1], fun _ => ⟨h2, h3⟩⟩

/-- The loop of `send_to` returns once a call reports an error or the counts
add up to what is left of the message. -/
theorem sendLoop_returns (message : List Int) (results : List Int) (s : SendState)
    (hprog : (-1 : Int) ∈ results ∨ (message.length : Int) ≤ s.total + results.sum) :
    ∃ ret wire, sendLoop message s results = .returned ret wire := by
  induction results generalizing s with
  | nil =>
    rw [sendLoop]
    have hdone : ¬ s.total < message.length := by
      rcases hprog with h | h
      · simp at h
      · simp only [List.sum_nil] at h; omega
    rw [if_neg hdone]
    exact ⟨_, _, rfl⟩
  | cons r rs ih =>
    rw [sendLoop]
    split
    · split
      · exact ⟨_, _, rfl⟩
      · rename_i hr
        apply ih
        rcases hprog with h | h
        · rcases List.mem_cons.1 h with h1 | h1
          · exact absurd h1.symm hr
          · exact Or.inl h1
        · right
          simp only [List.sum_cons] at h
          simp only
          omega
    · exact ⟨_, _, rfl⟩

/-- For every non-empty message and every sequence of results of the `send`
calls that fit (each `-1` or a count between `0` and the bytes still left) and
that holds an error or counts adding up to the length of the message, `send_to`
returns; it returns `-1` exactly when one of the calls it made reported `-1`, and
otherwise it returns `0` and the bytes the socket accepted are the whole message,
once and in order. -/
theorem send_to_nonempty (n0 : Int) (message results : List Int) (hne : message ≠ [])
    (hfit : sendsFit message
      { total := 0, bytesleft := message.length, n := n0, wire := [] } results = true)
    (hprog : (-1 : Int) ∈ results ∨ (message.length : Int) ≤ results.sum) :
    ∃ ret wire, send_to n0 message results = .returned ret wire ∧
      (ret = -1 ↔ (-1 : Int) ∈ sendCalls message
        { total := 0, bytesleft := message.length, n := n0, wire := [] } results) ∧
      (ret ≠ -1 → ret = 0 ∧ wire = message) := by
  have hpos : 0 < message.length := List.length_pos.2 hne
  obtain ⟨ret, wire, h⟩ := sendLoop_returns message results
    { total := 0, bytesleft := message.length, n := n0, wire := [] }
    (by simpa using hprog)
  exact ⟨ret, wire, h, sendLoop_spec message results _ ⟨le_refl 0, by simp, by simp, by simp⟩
    (Or.inl (by simp only; omega)) hfit ret wire h⟩

/-- The message `"GOOD"` sent by calls that accept 1, 0 and 3 bytes, whatever `n`
held on entry. -/
theorem send_to_nonempty_witness :
    ∃ ret wire, send_to (-1) (chars "GOOD") [1, 0, 3] = .returned ret wire ∧
      (ret = -1 ↔ (-1 : Int) ∈ sendCalls (chars "GOOD")
        { total := 0, bytesleft := (chars "GOOD").length, n := -1, wire := [] } [1, 0, 3]) ∧
      (ret ≠ -1 → ret = 0 ∧ wire = chars "GOOD") :=
  send_to_nonempty (-1) (chars "GOOD") [1, 0, 3] (by decide) (by decide) (by decide)

/-! ## Client -/

theorem readLoop_never_rejects (content stored : List Int) (bufferlen : Nat) :
    readLoop stored bufferlen content ≠ .badCharacters := by
  induction content generalizing stored bufferlen with
  | nil => simp [readLoop]
  | cons c rest ih =>
    rw [readLoop]
    split
    · rw [if_neg (by omega)]
      simp only
      split
      · split
        · exact ih _ _
        · exact fun h => ReadLoop.noConfusion h
      · split
        · exact ih _ _
        · exact fun h => ReadLoop.noConfusion h
    · exact fun h => ReadLoop.noConfusion h

/-- The length `readFile` stores is the number of bytes of the block it has
filled. -/
theorem readFile_length (file : Option (List Int)) (buffer : List Int) (length : Int)
    (h : readFile file = .loaded buffer length) : length = buffer.length := by
  unfold readFile at h
  split at h
  · exact ReadOutcome.noConfusion h
  · split at h
    · exact ReadOutcome.noConfusion h
    · exact ReadOutcome.noConfusion h
    · split at h
      · exact ReadOutcome.noConfusion h
      · split at h
        · exact ReadOutcome.noConfusion h
        · rename_i stored bufferlen _ _ _ last hlast
          have hne : stored ≠ [] := by
            intro e
            rw [e] at hlast
            exact Option.noConfusion hlast
          have hpos : 0 < stored.length := List.length_pos.2 hne
          split at h
          · injection h with h1 h2
            subst h1 h2
            rw [List.length_dropLast]
            omega
          · injection h with h1 h2
            subst h1 h2
            rfl

theorem validate_ok (argc port : Int) (h : (validate argc port).1 ≠ 0) :
    validate argc port = (1, []) := by
  unfold validate at h ⊢
  split
  · rename_i h1; rw [if_pos h1] at h; exact absurd rfl h
  · rename_i h1
    rw [if_neg h1] at h
    split
    · rename_i h2; rw [if_pos h2] at h; exact absurd rfl h
    · rfl

/-- C11: when both files have been loaded and the key is shorter than the
ciphertext, the client reports the key as too short and exits with code 1, which
is not zero; `connect_to`, `send_to` and `receiveStream` are not called. -/
theorem client_rejects_short_key (env : ClientEnv) (ciphertext key : List Int)
    (ciphertext_length key_length : Int)
    (hvalid : (validate env.argc env.port).1 ≠ 0)
    (hct : readFile env.ciphertextFile = .loaded ciphertext ciphertext_length)
    (hkey : readFile env.keyFile = .loaded key key_length)
    (hshort : key.length < ciphertext.length) :
    client_main env = [.readFile, .readFile, .diag .keyTooShort, .exitWith 1] ∧
      (∀ a ∈ client_main env, isNetworkCall a = false) ∧
      exitCode (client_main env) = some 1 ∧ (1 : Int) ≠ 0 := by
  have h1 := readFile_length _ _ _ hct
  have h2 := readFile_length _ _ _ hkey
  have hlt : key_length < ciphertext_length := by omega
  have hmain : client_main env = [.readFile, .readFile, .diag .keyTooShort, .exitWith 1] := by
    unfold client_main
    simp only [validate_ok _ _ hvalid, hct, hkey, if_pos hlt]
    rfl
  rw [hmain]
  exact ⟨rfl, by decide, by decide, by decide⟩

/-- C11 with the ciphertext `"HELLO"` and the key `"AB"`. -/
theorem client_rejects_short_key_witness :
    client_main { argc := 4, port := 5000, ciphertextFile := some (chars "HELLO\n"),
                  keyFile := some (chars "AB\n"), network := .connected 3, frames := [] }
        = [.readFile, .readFile, .diag .keyTooShort, .exitWith 1] ∧
      (∀ a ∈ client_main { argc := 4, port := 5000, ciphertextFile := some (chars "HELLO\n"),
                           keyFile := some (chars "AB\n"), network := .connected 3,
                           frames := [] },
        isNetworkCall a = false) ∧
      exitCode (client_main { argc := 4, port := 5000,
                              ciphertextFile := some (chars "HELLO\n"),
                              keyFile := some (chars "AB\n"), network := .connected 3,
                              frames := [] }) = some 1 ∧
      (1 : Int) ≠ 0 :=
  client_rejects_short_key
    { argc := 4, port := 5000, ciphertextFile := some (chars "HELLO\n"),
      keyFile := some (chars "AB\n"), network := .connected 3, frames := [] }
    (chars "HELLO") (chars "AB") 5 2 (by decide) (by decide) (by decide) (by decide)

/-- C12 (the code does not do this): the test
`c != 32 && !(c >= 65) && !(c <= 90)` asks for a character below 65 and above 90 at
once, so `readFile` never ends with its message about bad characters; the file
`"a1?\n"`, none of whose bytes is in the alphabet, is loaded like any other. -/
theorem readFile_accepts_any_byte :
    (∀ content : List Int, readFile (some content) ≠ .badCharacters) ∧
    readFile (some (chars "a1?\n")) = .loaded (chars "a1?") 3 ∧
    readFile (some (chars "HELLO world\n")) = .loaded (chars "HELLO world") 11 := by
  refine ⟨?_, by decide, by decide⟩
  intro content h
  unfold readFile at h
  simp only at h
  split at h
  · rename_i hl
    exact readLoop_never_rejects content [] 1024 hl
  · exact ReadOutcome.noConfusion h
  · split at h
    · exact ReadOutcome.noConfusion h
    · split at h
      · exact ReadOutcome.noConfusion h
      · split at h <;> exact ReadOutcome.noConfusion h


theorem exitCode_cons (a b : ClientAction) (l : List ClientAction) :
    exitCode (a :: b :: l) = exitCode (b :: l) := by
  simp [exitCode, List.getLast?_cons_cons]

theorem exitCode_cons_ne (a : ClientAction) (l : List ClientAction) (hl : l ≠ []) :
    exitCode (a :: l) = exitCode l := by
  cases l with
  | nil => exact absurd rfl hl
  | cons b l => exact exitCode_cons a b l

theorem exitCode_append_cons (l1 : List ClientAction) (b : ClientAction)
    (l : List ClientAction) : exitCode (l1 ++ b :: l) = exitCode (b :: l) := by
  induction l1 with
  | nil => rfl
  | cons a l1 ih =>
    cases l1 with
    | nil => exact exitCode_cons a b l
    | cons c l1 => rw [List.cons_append, List.cons_append, exitCode_cons, ← List.cons_append, ih]

theorem exchange_keyTooShort (env : ClientEnv) (ciphertext key : List Int) :
    ClientAction.diag .keyTooShort ∉ exchange env ciphertext key := by
  unfold exchange connect_to
  cases env.network <;> simp
  split
  · simp
  · cases env.frames with
    | nil => simp
    | cons status rest =>
      simp only
      split
      · simp
      · cases rest <;> simp

theorem exchange_couldNotContact (env : ClientEnv) (ciphertext key : List Int)
    (h : ClientAction.diag .couldNotContact ∈ exchange env ciphertext key) :
    exitCode (exchange env ciphertext key) = some 2 := by
  unfold exchange connect_to at h ⊢
  cases hn : env.network <;> simp only [hn] at h ⊢
  · simp at h
  · simp at h
  · simp at h
  · split
    · rfl
    · rename_i hs
      rw [if_neg hs] at h
      cases hf : env.frames with
      | nil => rw [hf] at h; simp at h
      | cons status rest =>
        rw [hf] at h
        simp only at h ⊢
        split
        · rfl
        · rename_i hb
          rw [if_neg hb] at h
          cases rest <;> simp at h

/-- The exit codes of the client's `main`, by the message that precedes the
exit. -/
theorem client_main_codes (env : ClientEnv) :
    ((validate env.argc env.port).1 = 0 → exitCode (client_main env) = some 3) ∧
    (ClientAction.diag .keyTooShort ∈ client_main env → exitCode (client_main env) = some 1) ∧
    (ClientAction.diag .couldNotContact ∈ client_main env →
      exitCode (client_main env) = some 2) := by
  unfold client_main
  simp only
  by_cases hv : (validate env.argc env.port).1 = 0
  · rw [if_pos hv]
    have h3 : exitCode ((validate env.argc env.port).2 ++ [.diag .invalidArgs, .exitWith 3])
        = some 3 := by
      rw [exitCode_append_cons]
      rfl
    have hmem : ∀ d : Diag, d ≠ .invalidArgs → d ≠ .wrongArgCount →
        ClientAction.diag d ∉ (validate env.argc env.port).2 ++ [.diag .invalidArgs, .exitWith 3] := by
      intro d h1 h2
      unfold validate
      split
      · simp [h1, h2]
      · split <;> simp [h1]
    exact ⟨fun _ => h3, fun h => absurd h (hmem _ (by decide) (by decide)),
      fun h => absurd h (hmem _ (by decide) (by decide))⟩
  · rw [if_neg hv, validate_ok _ _ hv]
    refine ⟨fun h => absurd h (by decide), ?_, ?_⟩
    · intro h
      cases hct : readFile env.ciphertextFile with
      | loaded ciphertext ciphertext_length =>
        rw [hct] at h
        simp only at h ⊢
        cases hkey : readFile env.keyFile with
        | loaded key key_length =>
          rw [hkey] at h
          simp only at h ⊢
          split
          · rfl
          · rename_i hlt
            rw [if_neg hlt] at h
            simp only [List.nil_append, List.mem_cons, reduceCtorEq, false_or] at h
            exact absurd h (exchange_keyTooShort env ciphertext key)
        | fileNotFound => rw [hkey] at h; simp [readFailure] at h
        | badCharacters => rw [hkey] at h; simp [readFailure] at h
        | fault => rw [hkey] at h; simp [readFailure] at h
      | fileNotFound => rw [hct] at h; simp [readFailure] at h
      | badCharacters => rw [hct] at h; simp [readFailure] at h
      | fault => rw [hct] at h; simp [readFailure] at h
    · intro h
      cases hct : readFile env.ciphertextFile with
      | loaded ciphertext ciphertext_length =>
        rw [hct] at h
        simp only at h ⊢
        cases hkey : readFile env.keyFile with
        | loaded key key_length =>
          rw [hkey] at h
          simp only at h ⊢
          split
          · rename_i hlt
            rw [if_pos hlt] at h
            simp at h
          · rename_i hlt
            rw [if_neg hlt] at h
            simp only [List.nil_append, List.mem_cons, reduceCtorEq, false_or] at h
            have hne : exchange env ciphertext key ≠ [] := by
              unfold exchange
              exact List.cons_ne_nil _ _
            rw [List.nil_append, exitCode_cons_ne _ _ (List.cons_ne_nil _ _),
              exitCode_cons_ne _ _ hne]
            exact exchange_couldNotContact env ciphertext key h
        | fileNotFound => rw [hkey] at h; simp [readFailure] at h
        | badCharacters => rw [hkey] at h; simp [readFailure] at h
        | fault => rw [hkey] at h; simp [readFailure] at h
      | fileNotFound => rw [hct] at h; simp [readFailure] at h
      | badCharacters => rw [hct] at h; simp [readFailure] at h
      | fault => rw [hct] at h; simp [readFailure] at h

theorem validate_bad (argc port : Int) (h : argc ≠ 4 ∨ port = 0) :
    (validate argc port).1 = 0 := by
  unfold validate
  split
  · rfl
  · rename_i h4
    rcases h with h | h
    · exact absurd h h4
    · rw [if_pos h]

/-- C13 as stated fails: with two arguments, and with four arguments the last
of which `atoi` reads as 0, the client exits with code 3, not 1; code 1 is the one
it uses for a key that is too short. -/
theorem client_bad_arguments_counterexample :
    client_main { argc := 2, port := 0, ciphertextFile := none, keyFile := none,
                  network := .noHost, frames := [] }
      = [.diag .wrongArgCount, .diag .invalidArgs, .exitWith 3] ∧
    client_main { argc := 4, port := 0, ciphertextFile := some (chars "HELLO\n"),
                  keyFile := some (chars "XMCKL\n"), network := .connected 3, frames := [] }
      = [.diag .invalidArgs, .exitWith 3] ∧
    exitCode (client_main { argc := 2, port := 0, ciphertextFile := none, keyFile := none,
                            network := .noHost, frames := [] }) ≠ some 1 ∧
    exitCode (client_main { argc := 4, port := 5000, ciphertextFile := some (chars "HELLO\n"),
                            keyFile := some (chars "AB\n"), network := .connected 3,
                            frames := [] }) = some 1 := by
  decide

/-- C13 as amended: on bad arguments (an argument count other than 4, or a port
argument that `atoi` reads as 0) the client exits with code 3; a run `env1` that
reports the key as too short exits with code 1 and one in which `main` reports
that it could not contact the daemon exits with code 2, both different from the
code of the run with bad arguments. -/
theorem client_exit_codes (env env1 : ClientEnv) (hbad : env.argc ≠ 4 ∨ env.port = 0) :
    exitCode (client_main env) = some 3 ∧
    (ClientAction.diag .keyTooShort ∈ client_main env1 →
      exitCode (client_main env1) = some 1 ∧
        exitCode (client_main env1) ≠ exitCode (client_main env)) ∧
    (ClientAction.diag .couldNotContact ∈ client_main env1 →
      exitCode (client_main env1) = some 2 ∧
        exitCode (client_main env1) ≠ exitCode (client_main env)) := by
  have h3 := (client_main_codes env).1 (validate_bad _ _ hbad)
  refine ⟨h3, ?_, ?_⟩
  · intro h
    have h1 := (client_main_codes env1).2.1 h
    rw [h1, h3]
    exact ⟨rfl, by decide⟩
  · intro h
    have h2 := (client_main_codes env1).2.2 h
    rw [h2, h3]
    exact ⟨rfl, by decide⟩

/-- C13 as amended, for a run with two arguments, a run with a key that is too
short and a run that the daemon answers with `"BAD"`. -/
theorem client_exit_codes_witness :
    (exitCode (client_main { argc := 2, port := 0, ciphertextFile := none, keyFile := none,
                             network := .noHost, frames := [] }) = some 3 ∧
      exitCode (client_main { argc := 4, port := 5000,
                              ciphertextFile := some (chars "HELLO\n"),
                              keyFile := some (chars "AB\n"), network := .connected 3,
                              frames := [] }) = some 1) ∧
    exitCode (client_main { argc := 4, port := 5000, ciphertextFile := some (chars "AB\n"),
                            keyFile := some (chars "XM\n"), network := .connected 3,
                            frames := [chars "BAD"] }) = some 2 :=
  ⟨⟨(client_exit_codes
        { argc := 2, port := 0, ciphertextFile := none, keyFile := none, network := .noHost,
          frames := [] }
        { argc := 4, port := 5000, ciphertextFile := some (chars "HELLO\n"),
          keyFile := some (chars "AB\n"), network := .connected 3, frames := [] }
        (by decide)).1,
      ((client_exit_codes
        { argc := 2, port := 0, ciphertextFile := none, keyFile := none, network := .noHost,
          frames := [] }
        { argc := 4, port := 5000, ciphertextFile := some (chars "HELLO\n"),
          keyFile := some (chars "AB\n"), network := .connected 3, frames := [] }
        (by decide)).2.1 (by decide)).1⟩,
    ((client_exit_codes
        { argc := 2, port := 0, ciphertextFile := none, keyFile := none, network := .noHost,
          frames := [] }
        { argc := 4, port := 5000, ciphertextFile := some (chars "AB\n"),
          keyFile := some (chars "XM\n"), network := .connected 3, frames := [chars "BAD"] }
        (by decide)).2.2 (by decide)).1⟩

/-- When the host is unknown or `socket` or `connect` fails, `connect_to` ends
the process itself with code 0 after its own message: `main` does not report
that it could not contact the daemon, and its branch for a negative descriptor
is never taken. -/
theorem client_connect_failure (env : ClientEnv) (ciphertext key : List Int)
    (ciphertext_length key_length : Int)
    (hvalid : (validate env.argc env.port).1 ≠ 0)
    (hct : readFile env.ciphertextFile = .loaded ciphertext ciphertext_length)
    (hkey : readFile env.keyFile = .loaded key key_length)
    (hlong : ¬ key_length < ciphertext_length)
    (hnet : ∀ socketFD, env.network ≠ .connected socketFD) :
    exitCode (client_main env) = some 0 ∧
      ClientAction.diag .couldNotContact ∉ client_main env := by
  have hmain : client_main env = .readFile :: .readFile :: exchange env ciphertext key := by
    unfold client_main
    simp only [validate_ok _ _ hvalid, hct, hkey, if_neg hlong]
    rfl
  rw [hmain]
  unfold exchange connect_to
  cases hn : env.network with
  | connected socketFD => exact absurd hn (hnet socketFD)
  | noHost => exact ⟨rfl, by simp⟩
  | socketFailed => exact ⟨rfl, by simp⟩
  | connectFailed => exact ⟨rfl, by simp⟩

/-- A refused connection, after both files have been loaded. -/
theorem client_connect_failure_witness :
    exitCode (client_main { argc := 4, port := 5000, ciphertextFile := some (chars "AB\n"),
                            keyFile := some (chars "XM\n"), network := .connectFailed,
                            frames := [] }) = some 0 ∧
      ClientAction.diag .couldNotContact ∉
        client_main { argc := 4, port := 5000, ciphertextFile := some (chars "AB\n"),
                      keyFile := some (chars "XM\n"), network := .connectFailed,
                      frames := [] } :=
  client_connect_failure
    { argc := 4, port := 5000, ciphertextFile := some (chars "AB\n"),
      keyFile := some (chars "XM\n"), network := .connectFailed, frames := [] }
    (chars "AB") (chars "XM") 2 2 (by decide) (by decide) (by decide) (by decide)
    (by intro fd h; exact ConnectEnv.noConfusion h)

/-! ## Frame transport: the margin of `receiveStream` -/

/-- An occurrence found by the search lies inside the string. -/
theorem findSub_bound (needle hay : List Int) (i : Nat) (h : findSub needle hay = some i) :
    i + needle.length ≤ hay.length := by
  induction hay generalizing i with
  | nil =>
    rw [findSub] at h
    split at h
    · rename_i hs
      obtain ⟨post, hp⟩ := (startsWith_iff needle []).1 hs
      have hl := congrArg List.length hp
      simp only [List.length_nil, List.length_append] at hl
      injection h with h
      omega
    · exact Option.noConfusion h
  | cons x hay ih =>
    rw [findSub] at h
    split at h
    · rename_i hs
      obtain ⟨post, hp⟩ := (startsWith_iff needle (x :: hay)).1 hs
      have hl := congrArg List.length hp
      simp only [List.length_append] at hl
      injection h with h
      omega
    · cases hf : findSub needle hay with
      | none => rw [hf] at h; exact Option.noConfusion h
      | some j =>
        rw [hf] at h
        simp only [Option.map_some', Option.some.injEq] at h
        have := ih j hf
        simp only [List.length_cons]
        omega

/-- The code after the loop returns when the last read holds the terminating
sequence, whatever else the read holds. -/
theorem finish_returns (a bs tail : List Int) (z bufferlen i : Nat) (total : Int) (hz : 0 < z)
    (hi : findSub SENTINEL (List.takeWhile notNul bs) = some i) :
    ∃ payload, finish { buffer := a ++ bs ++ List.replicate z 0 ++ tail, start := a.length,
                        totalBytes := total, bufferlen := bufferlen } = .returned payload := by
  have hb := findSub_bound _ _ i hi
  have hle : (List.takeWhile notNul bs).length ≤ bs.length :=
    (List.takeWhile_sublist notNul).length_le
  have hlen : a.length + i + 3 ≤ (a ++ bs ++ List.replicate z 0 ++ tail).length := by
    simp only [SENTINEL, List.length_cons, List.length_nil] at hb
    simp only [List.length_append, List.length_replicate]
    omega
  unfold finish
  simp only
  rw [strstr_fresh a bs tail z hz, hi]
  simp only
  have hstore : store (a ++ bs ++ List.replicate z 0 ++ tail) (a.length + i) [0, 0, 0]
      = some (List.take (a.length + i) (a ++ bs ++ List.replicate z 0 ++ tail) ++ [0, 0, 0] ++
          List.drop (a.length + i + 3) (a ++ bs ++ List.replicate z 0 ++ tail)) := by
    unfold store
    rw [if_pos (by simpa using hlen)]
    rfl
  rw [hstore]
  simp only
  have hmem : (0 : Int) ∈ List.drop 0 (List.take (a.length + i)
      (a ++ bs ++ List.replicate z 0 ++ tail) ++ [0, 0, 0] ++
        List.drop (a.length + i + 3) (a ++ bs ++ List.replicate z 0 ++ tail)) := by
    simp
  unfold cstrAt
  rw [if_pos hmem]
  exact ⟨_, rfl⟩

/-- Reads that fit, deliver at most `2^29` bytes in all and meet no failure of
`malloc` or `realloc` never end in undefined behaviour: after them
`receiveStream` has returned or is waiting for the next read. -/
theorem loop_bounded (heap : Heap) (chunks : List (List Int)) (s : RecvState)
    (received : List Int) (hinv : Inv s received)
    (hgr : ∀ n, heap.grants n = true)
    (hlen : (received ++ chunks.flatten).length ≤ 2 ^ 29)
    (hfit : readsFit heap s (chunks.map .data) = true) :
    (∃ s1, loop heap s (chunks.map .data) = .pending s1) ∨
      ∃ payload, loop heap s (chunks.map .data) = .returned payload := by
  induction chunks generalizing s received with
  | nil =>
    have hguard := inv_guard s received hinv
    exact Or.inl ⟨s, by rw [List.map_nil, loop, if_pos hguard]⟩
  | cons c chunks ih =>
    have hguard := inv_guard s received hinv
    rw [List.map_cons, readsFit_cons heap s _ _ hguard, Bool.and_eq_true] at hfit
    rw [List.map_cons, loop_cons heap s _ _ hguard]
    have hlen1 : received.length + c.length + chunks.flatten.length ≤ 2 ^ 29 := by
      simp only [List.flatten_cons, List.length_append] at hlen
      omega
    cases hf : findSub SENTINEL (List.takeWhile notNul c) with
    | none =>
      obtain ⟨s2, hit, hinv2⟩ := iteration_data_next heap s received c hinv hfit.1 hf
        (fun hgrow => ⟨by
          simp only [List.length_append] at hgrow
          unfold INT_MAX
          omega, hgr _⟩)
      rw [hit] at hfit ⊢
      exact ih s2 (received ++ c) hinv2 (by simp only [List.length_append]; omega) hfit.2
    | some i =>
      obtain ⟨z, tail, hz, hit⟩ := iteration_data_found heap s received c i hinv hfit.1 hf
      rw [hit]
      exact Or.inr (finish_returns received c tail z s.bufferlen i _ hz hf)

/-- For reads that fit and deliver at most `2^29` bytes in all, `malloc` and
`realloc` not failing, `receiveStream` has returned a string or is waiting for
the next read: no counter has left the range of `int` and no access has left the
block. -/
theorem receiveStream_never_faults (heap : Heap) (chunks : List (List Int))
    (hgr : ∀ n, heap.grants n = true)
    (hlen : chunks.flatten.length ≤ 2 ^ 29)
    (hfit : readsFit heap initState (chunks.map .data) = true) :
    (∃ s, receiveStream heap (chunks.map .data) = .pending s) ∨
      ∃ payload, receiveStream heap (chunks.map .data) = .returned payload := by
  rw [receiveStream_granted heap _ (hgr _)]
  exact loop_bounded heap chunks initState [] inv_init hgr (by simpa using hlen) hfit

/-- The reads `"AB"`, `"CD@@@"`, `"EF"`: the function returns at the second. -/
theorem receiveStream_never_faults_witness :
    (∃ s, receiveStream (ampleHeap 0)
        ([chars "AB", chars "CD@@@", chars "EF"].map .data) = .pending s) ∨
      ∃ payload, receiveStream (ampleHeap 0)
        ([chars "AB", chars "CD@@@", chars "EF"].map .data) = .returned payload :=
  receiveStream_never_faults (ampleHeap 0) [chars "AB", chars "CD@@@", chars "EF"]
    (fun _ => rfl) (by decide) (by decide!)

/-- C14 as stated fails.  On a read that carries the terminating sequence: the
single read of 597 bytes `'A'` followed by `"@@@"` fits the 1019 bytes asked
for and brings `totalBytes` to 600, more than half of the capacity 1024, yet the
loop is left at once and the capacity is not doubled.  And on a long stream:
after the twenty reads `fillLens`, which all fit, the function waits with
`totalBytes = 2^29 - 5` and `bufferlen = 2^30`; a read of six bytes fits, takes
`totalBytes` beyond half of the capacity, and the doubling leaves the range of
`int`, so that neither the capacity is doubled nor the loop goes on.  Nor is it
doubled when `realloc` fails, as after a first read of 600 bytes on a heap that
has no block of 2048 bytes to give. -/
theorem receiveStream_no_growth_on_break :
    (fits initState (.data (List.replicate 597 65 ++ SENTINEL)) = true ∧
      iteration (ampleHeap 0) initState (.data (List.replicate 597 65 ++ SENTINEL))
        = .found { buffer := List.replicate 597 65 ++ SENTINEL ++ List.replicate 424 0,
                   start := 0, totalBytes := 600, bufferlen := 1024 } ∧
      ((1024 / 2 : Nat) : Int) < 600 ∧
      receiveStream (ampleHeap 0) [.data (List.replicate 597 65 ++ SENTINEL)]
        = .returned (List.replicate 597 65)) ∧
    (readsFit (ampleHeap 0) initState ((plainReads fillLens).map .data) = true ∧
      ∃ s, receiveStream (ampleHeap 0) ((plainReads fillLens).map .data) = .pending s ∧
        s.totalBytes = 2 ^ 29 - 5 ∧ s.bufferlen = 2 ^ 30 ∧
        fits s (.data (List.replicate 6 65)) = true ∧
        iteration (ampleHeap 0) s (.data (List.replicate 6 65)) = .fault) ∧
    (fits initState (.data (List.replicate 600 65)) = true ∧
      iteration (tightHeap 1024) initState (.data (List.replicate 600 65)) = .fault) := by
  refine ⟨by decide!, ?_, by decide!⟩
  obtain ⟨hfit, s, hpend, htotal, hcap, hfits, hfault⟩ :=
    fill_overflow (ampleHeap 0) (fun _ => rfl)
  exact ⟨hfit, s, by rw [receiveStream_granted (ampleHeap 0) _ rfl, hpend], htotal, hcap,
    hfits, hfault⟩

/-- C14 as amended: let the reads so far fit the lengths asked for and leave
`receiveStream` in its loop, in state `s`, and let the next read `bs` fit as
well, the reads delivering at most `2^29` bytes in all and `realloc` not
failing.  Then the length asked for at this `recv` call is positive and the loop
guard holds; after the read `totalBytes + 5 ≤ bufferlen`; and either the read
holds the terminating sequence, the loop is left by the `break` with the
capacity unchanged and the function returns, or the loop goes on, the capacity
having been doubled exactly when the new `totalBytes` exceeds half of it, with
the margin and the loop guard intact. -/
theorem receiveStream_margin (heap : Heap) (chunks : List (List Int)) (s : RecvState)
    (bs : List Int)
    (hlen : chunks.flatten.length + bs.length ≤ 2 ^ 29)
    (hgr : ∀ n, heap.grants n = true)
    (hfit : readsFit heap initState (chunks.map .data) = true)
    (hpend : receiveStream heap (chunks.map .data) = .pending s)
    (hbs : fits s (.data bs) = true) :
    0 < requested s ∧ s.totalBytes < s.bufferlen ∧
      s.totalBytes + bs.length + 5 ≤ s.bufferlen ∧
      ((∃ s1 payload, iteration heap s (.data bs) = .found s1 ∧
          s1.totalBytes = s.totalBytes + bs.length ∧ s1.bufferlen = s.bufferlen ∧
          finish s1 = .returned payload) ∨
        (∃ s1, iteration heap s (.data bs) = .next s1 ∧
          s1.totalBytes = s.totalBytes + bs.length ∧
          s1.bufferlen = (if ((s.bufferlen / 2 : Nat) : Int) < s.totalBytes + bs.length
            then s.bufferlen * 2 else s.bufferlen) ∧
          s1.totalBytes + 5 ≤ s1.bufferlen ∧ s1.totalBytes < s1.bufferlen)) := by
  have hinv := loop_pending_inv heap chunks initState s [] inv_init hfit
    (receiveStream_pending heap _ s hpend).2
  have hguard := inv_guard s _ hinv
  obtain ⟨htotal, ⟨z, tail, hshape, htail, hlen0⟩, hhalf, hbig, hcap, hsmall⟩ := hinv
  have hz := fits_data s _ bs z htotal hlen0 hbs
  have hcast : (((([] : List Int) ++ chunks.flatten) ++ bs).length : Nat)
      = s.totalBytes + (bs.length : Int) := by
    rw [htotal, List.length_append]
    push_cast
    rfl
  refine ⟨by unfold requested; omega, hguard, by omega, ?_⟩
  have hit := iteration_data heap s _ bs tail z htotal hshape (by omega) (by omega)
  cases hf : findSub SENTINEL (List.takeWhile notNul bs) with
  | some i =>
    left
    rw [hit, afterRecv_found heap _ bs tail (z - bs.length) s.bufferlen i _ (by omega) hf]
    obtain ⟨payload, hp⟩ := finish_returns ([] ++ chunks.flatten) bs tail (z - bs.length)
      s.bufferlen i ((([] ++ chunks.flatten) ++ bs).length : Nat) (by omega) hf
    exact ⟨_, payload, rfl, hcast, rfl, hp⟩
  | none =>
    right
    obtain ⟨s1, h1, hinv1⟩ := afterRecv_next heap ([] ++ chunks.flatten) bs tail (z - bs.length)
      s.bufferlen (by omega) htail (by omega) hbig hcap hsmall hf
      (fun hgrow => ⟨by
        simp only [List.length_append, List.length_nil] at hgrow
        unfold INT_MAX
        omega, hgr _⟩)
    have hsz := afterRecv_next_sizes heap _ _ _ _ s1 h1
    rw [hcast] at hsz
    have hg1 := inv_guard s1 _ hinv1
    refine ⟨s1, hit.trans h1, hsz.1, hsz.2, ?_, hg1⟩
    rw [hsz.1, hsz.2]
    split <;> push_cast <;> omega

/-- C14 as amended, at the start of the loop and a read of 600 bytes, after
which the capacity is doubled. -/
theorem receiveStream_margin_witness :
    0 < requested initState ∧ initState.totalBytes < initState.bufferlen ∧
      initState.totalBytes + (List.replicate 600 (65 : Int)).length + 5 ≤ initState.bufferlen ∧
      ((∃ s1 payload, iteration (ampleHeap 0) initState (.data (List.replicate 600 65))
            = .found s1 ∧
          s1.totalBytes = initState.totalBytes + (List.replicate 600 (65 : Int)).length ∧
          s1.bufferlen = initState.bufferlen ∧ finish s1 = .returned payload) ∨
        (∃ s1, iteration (ampleHeap 0) initState (.data (List.replicate 600 65)) = .next s1 ∧
          s1.totalBytes = initState.totalBytes + (List.replicate 600 (65 : Int)).length ∧
          s1.bufferlen = (if ((initState.bufferlen / 2 : Nat) : Int)
              < initState.totalBytes + (List.replicate 600 (65 : Int)).length
            then initState.bufferlen * 2 else initState.bufferlen) ∧
          s1.totalBytes + 5 ≤ s1.bufferlen ∧ s1.totalBytes < s1.bufferlen)) :=
  receiveStream_margin (ampleHeap 0) [] initState (List.replicate 600 65) (by decide!)
    (fun _ => rfl) (by decide) (by decide!) (by decide!)

/-! ## Worker pool: the counter -/

/-- The parent blocks in `wait` only with a full pool. -/
theorem step_full (d d1 : Daemon) (e : Event)
    (hfull : d.loc = .blockWait → MAX_PROC ≤ d.process_count) (h : step d e = some d1) :
    d1.loc = .blockWait → MAX_PROC ≤ d1.process_count := by
  obtain ⟨loc, pc, running, zombies⟩ := d
  cases e <;> cases loc <;>
    simp only [step, reduceCtorEq, if_true, if_false, or_true, or_false, true_or] at h
  all_goals first
    | exact Option.noConfusion h
    | (injection h with h
       subst h
       simp only [reduceCtorEq, imp_false, not_false_eq_true, forall_const, false_imp_iff,
         not_true_eq_false] at * <;>
       first
         | trivial
         | exact hfull
         | (intro hl
            split at hl
            · exact Loc.noConfusion hl
            · omega))
    | (split at h <;> first
        | exact Option.noConfusion h
        | (injection h with h
           subst h
           simp only [reduceCtorEq, imp_false, not_false_eq_true, forall_const, false_imp_iff,
             not_true_eq_false] at * <;>
           trivial)
        | (split at h <;> first
            | exact Option.noConfusion h
            | (injection h with h
               subst h
               exact hfull)))

theorem runDaemon_full (events : List Event) (d d1 : Daemon)
    (hfull : d.loc = .blockWait → MAX_PROC ≤ d.process_count)
    (h : runDaemon d events = some d1) :
    d1.loc = .blockWait → MAX_PROC ≤ d1.process_count := by
  induction events generalizing d with
  | nil =>
    simp only [runDaemon, Option.some.injEq] at h
    exact h ▸ hfull
  | cons e es ih =>
    simp only [runDaemon] at h
    cases hs : step d e with
    | none => simp [hs] at h
    | some d2 =>
      rw [hs] at h
      exact ih d2 (step_full d d2 e hfull hs) h

/-- C15 as stated fails between the increment of line 69 and the `fork`: once
the first connection has been accepted the counter is 1 while no child has been
forked yet. -/
theorem daemon_count_ahead_of_fork :
    runDaemon initDaemon [.test, .connect]
      = some { loc := .forking, process_count := 1, running := 0, zombies := 0 } ∧
    (1 : Int) ≠ (active { loc := .forking, process_count := 1, running := 0, zombies := 0 } : Nat) := by
  decide

/-- C15 as amended: in every state the daemon reaches (`accept` and `fork`
succeeding), `process_count` is non-negative and equals the number of children
forked and not yet reaped, except between the increment of line 69 and the
`fork` that follows it, where it is one more; whenever `wait` or `waitpid` reaps a
child the guard `*process_count > 0` is true and the counter is decremented; and
the parent is inside the blocking `wait` of `block_cleanup` only while at least
one child is unreaped. -/
theorem daemon_count_exact (events : List Event) (d : Daemon)
    (h : runDaemon initDaemon events = some d) :
    0 ≤ d.process_count ∧
      (d.loc ≠ .forking → d.process_count = (active d : Int)) ∧
      (d.loc = .forking → d.process_count = (active d : Int) + 1) ∧
      (∀ d1, step d .wait = some d1 → 0 < d.zombies →
        0 < d.process_count ∧ d1.process_count = d.process_count - 1) ∧
      (∀ d1, step d .waitpid = some d1 → 0 < d.zombies →
        0 < d.process_count ∧ d1.process_count = d.process_count - 1) ∧
      (d.loc = .blockWait → 1 ≤ active d) := by
  obtain ⟨hcount, hbound, hroom⟩ := runDaemon_inv events initDaemon d inv_initDaemon h
  have hfull := runDaemon_full events initDaemon d (fun hl => Loc.noConfusion hl) h
  obtain ⟨loc, pc, running, zombies⟩ := d
  simp only [active, MAX_PROC] at *
  refine ⟨?_, ?_, ?_, ?_, ?_, ?_⟩
  · split at hcount <;> omega
  · intro hl
    rw [if_neg hl] at hcount
    omega
  · intro hl
    rw [if_pos hl] at hcount
    omega
  · intro d1 hstep hz
    cases loc <;> simp only [step, reduceCtorEq, if_true, if_false] at hstep
    rw [if_pos hz] at hstep
    injection hstep with hstep
    subst hstep
    simp only [reduceCtorEq, if_false, reap] at *
    have hp : (0 : Int) < pc := by omega
    rw [if_pos hp]
    exact ⟨hp, rfl⟩
  · intro d1 hstep hz
    cases loc <;>
      simp only [step, reduceCtorEq, if_true, if_false, or_true, or_false, true_or,
        or_self] at hstep
    all_goals
      rw [if_pos hz] at hstep
      injection hstep with hstep
      subst hstep
      simp only [reduceCtorEq, if_false, reap] at *
      have hp : (0 : Int) < pc := by omega
      rw [if_pos hp]
      exact ⟨hp, rfl⟩
  · intro hl
    have := hfull hl
    rw [if_neg (by rw [hl]; exact fun e => Loc.noConfusion e)] at hcount
    omega

/-- C15 as amended, with the pool full and one worker terminated: the parent
sits in `wait`, the counter is 5, and reaping the worker brings it to 4. -/
theorem daemon_count_exact_witness :
    (0 : Int) ≤ 5 ∧
      (Loc.blockWait ≠ .forking → (5 : Int)
        = (active { loc := .blockWait, process_count := 5, running := 4, zombies := 1 } : Nat)) ∧
      (Loc.blockWait = .forking → (5 : Int)
        = (active { loc := .blockWait, process_count := 5, running := 4, zombies := 1 } : Nat)
          + 1) ∧
      (∀ d1, step { loc := .blockWait, process_count := 5, running := 4, zombies := 1 } .wait
          = some d1 → 0 < 1 → (0 : Int) < 5 ∧ d1.process_count = 5 - 1) ∧
      (∀ d1, step { loc := .blockWait, process_count := 5, running := 4, zombies := 1 } .waitpid
          = some d1 → 0 < 1 → (0 : Int) < 5 ∧ d1.process_count = 5 - 1) ∧
      (Loc.blockWait = .blockWait →
        1 ≤ active { loc := .blockWait, process_count := 5, running := 4, zombies := 1 }) :=
  daemon_count_exact
    [.test, .connect, .fork, .waitpid, .test, .connect, .fork, .waitpid,
     .test, .connect, .fork, .waitpid, .test, .connect, .fork, .waitpid,
     .test, .connect, .fork, .waitpid, .test, .childExit]
    { loc := .blockWait, process_count := 5, running := 4, zombies := 1 } (by decide)

end OtpDec
